import Mathlib

/-!
# UniSteno: shallow embedding of the steganographic embed/extract engine

This file models the four carrier adapters of the UniSteno repository
(`plugins/image_lsb_stego.py`, `plugins/audio_lsb_stego.py`,
`plugins/video_lsb_stego.py`, `plugins/text_lsb_stego.py`) and proves
properties of the framing format, seed derivation, capacity checks,
integrity checking and round trips.

Modelling conventions:
* Bytes, PCM samples and Unicode code points are `Nat`s; byte lists are
  `List Nat` with side conditions `x < 256` where needed.
* Bit streams are `List Bool`, most-significant bit first within a byte,
  matching `np.unpackbits` and Python's `f"{b:08b}"`.
* The NumPy permutation produced by `np.random.default_rng(seed).permutation`
  is modelled as an explicit parameter `perm : List Nat`, constrained in
  theorems to be a permutation of `List.range capacity`; embed and extract
  with the same password receive the same `perm`, which is exactly the
  reproducibility contract the code relies on.
* The AES primitives from PyCryptodome are modelled as function parameters
  (the block cipher is external to the repository); PKCS#7 padding,
  SHA-256, CRC-32 and base64 are implemented concretely.
* The plugins raise untyped Python exceptions; the spec's error taxonomy
  (`CapacityError`/`FormatError`/`IntegrityError`/`CryptoError`) classifies
  them, and the model returns that classification in `Except`.
-/

set_option maxRecDepth 16384

namespace UniSteno

/-- Spec §7 error taxonomy. -/
inductive StegoErr where
  | capacity
  | format
  | integrity
  | crypto
deriving DecidableEq, Repr

/-! ## Bits and bytes -/

/-- The 8 bits of a byte, most significant first (`np.unpackbits` order). -/
def byteToBits (b : Nat) : List Bool :=
  [b.testBit 7, b.testBit 6, b.testBit 5, b.testBit 4,
   b.testBit 3, b.testBit 2, b.testBit 1, b.testBit 0]

/-- A byte string expanded to a bit stream, MSB first per byte. -/
def bytesToBits : List Nat → List Bool
  | [] => []
  | b :: l => byteToBits b ++ bytesToBits l

/-- Big-endian value of a bit list (`int(bits, 2)`). -/
def bitsToNat (l : List Bool) : Nat :=
  l.foldl (fun a b => 2 * a + (if b then 1 else 0)) 0

/-- `np.packbits`: accumulate 8 bits per byte, zero-padding the final byte.
`cnt` counts bits already in `acc` (0–7). -/
def packBitsAux : List Bool → Nat → Nat → List Nat
  | [], cnt, acc => if cnt = 0 then [] else [acc * 2 ^ (8 - cnt)]
  | b :: l, cnt, acc =>
    let acc' := 2 * acc + (if b then 1 else 0)
    if cnt = 7 then acc' :: packBitsAux l 0 0 else packBitsAux l (cnt + 1) acc'

/-- `np.packbits(bits).tobytes()`. -/
def bitsToBytes (l : List Bool) : List Nat := packBitsAux l 0 0

/-- `w`-byte big-endian encoding of `n` (`int.to_bytes(w, 'big')`,
`struct.pack(">I")`, `struct.pack(">H")`). -/
def beBytes : Nat → Nat → List Nat
  | 0, _ => []
  | w + 1, n => (n / 2 ^ (8 * w)) % 256 :: beBytes w n

/-- Big-endian integer value of a byte string (`int.from_bytes(_, 'big')`,
`struct.unpack(">I")`). -/
def beBytesToNat (l : List Nat) : Nat :=
  l.foldl (fun a b => 256 * a + b) 0

/-! ## CRC-32 (`zlib.crc32`) -/

/-- One bit-step of the reflected CRC-32 algorithm, polynomial
`0xEDB88320`. -/
def crc32Round (s : Nat) : Nat :=
  if s % 2 = 1 then (s / 2) ^^^ 0xEDB88320 else s / 2

/-- Absorb one byte into a CRC-32 state. -/
def crc32Byte (s b : Nat) : Nat :=
  crc32Round^[8] (s ^^^ b)

/-- `zlib.crc32(bs) & 0xffffffff`. -/
def crc32 (bs : List Nat) : Nat :=
  (bs.foldl crc32Byte 0xFFFFFFFF) ^^^ 0xFFFFFFFF

/-! ## LSB carrier access -/

/-- `(v & 0xFE) | bit` on a byte-sized value: overwrite the least
significant bit. -/
def writeLsb (v : Nat) (b : Bool) : Nat :=
  2 * (v / 2) + (if b then 1 else 0)

/-- Scatter-write `bits` into the least significant bits of `flat` at the
positions listed in `pos` (position `pos[i]` receives `bits[i]`). -/
def writeBits (flat : List Nat) (pos : List Nat) (bits : List Bool) : List Nat :=
  (pos.zip bits).foldl (fun f pb => f.set pb.1 (writeLsb (f.getD pb.1 0) pb.2)) flat

/-- Read `n` least-significant bits at positions `pos[s], …, pos[s+n-1]`
(truncating like a NumPy slice when `pos` is too short). -/
def readBitsAt (flat : List Nat) (pos : List Nat) (s n : Nat) : List Bool :=
  ((pos.drop s).take n).map (fun p => (flat.getD p 0).testBit 0)

/-! ## SHA-256 (`hashlib.sha256`), over byte lists -/

/-- Rotate a 32-bit word right by `n`. -/
def rotr32 (x n : Nat) : Nat :=
  (x / 2 ^ n + x % 2 ^ n * 2 ^ (32 - n)) % 2 ^ 32

/-- SHA-256 Σ₀. -/
def bsig0 (x : Nat) : Nat := rotr32 x 2 ^^^ rotr32 x 13 ^^^ rotr32 x 22

/-- SHA-256 Σ₁. -/
def bsig1 (x : Nat) : Nat := rotr32 x 6 ^^^ rotr32 x 11 ^^^ rotr32 x 25

/-- SHA-256 σ₀. -/
def ssig0 (x : Nat) : Nat := rotr32 x 7 ^^^ rotr32 x 18 ^^^ x / 2 ^ 3

/-- SHA-256 σ₁. -/
def ssig1 (x : Nat) : Nat := rotr32 x 17 ^^^ rotr32 x 19 ^^^ x / 2 ^ 10

/-- SHA-256 Ch. -/
def sha256Ch (x y z : Nat) : Nat := (x &&& y) ^^^ ((x ^^^ 0xFFFFFFFF) &&& z)

/-- SHA-256 Maj. -/
def sha256Maj (x y z : Nat) : Nat := (x &&& y) ^^^ (x &&& z) ^^^ (y &&& z)

/-- SHA-256 round constants (FIPS 180-4), written in decimal. -/
def sha256K : List Nat :=
  [1116352408, 1899447441, 3049323471, 3921009573, 961987163,
   1508970993, 2453635748, 2870763221, 3624381080, 310598401,
   607225278, 1426881987, 1925078388, 2162078206, 2614888103,
   3248222580, 3835390401, 4022224774, 264347078, 604807628,
   770255983, 1249150122, 1555081692, 1996064986, 2554220882,
   2821834349, 2952996808, 3210313671, 3336571891, 3584528711,
   113926993, 338241895, 666307205, 773529912, 1294757372,
   1396182291, 1695183700, 1986661051, 2177026350, 2456956037,
   2730485921, 2820302411, 3259730800, 3345764771, 3516065817,
   3600352804, 4094571909, 275423344, 430227734, 506948616,
   659060556, 883997877, 958139571, 1322822218, 1537002063,
   1747873779, 1955562222, 2024104815, 2227730452, 2361852424,
   2428436474, 2756734187, 3204031479, 3329325298]

/-- SHA-256 initial hash value, written in decimal. -/
def sha256H0 : List Nat :=
  [1779033703, 3144134277, 1013904242, 2773480762,
   1359893119, 2600822924, 528734635, 1541459225]

/-- Merkle–Damgård padding to a multiple of 64 bytes. -/
def sha256Pad (msg : List Nat) : List Nat :=
  msg ++ [0x80] ++ List.replicate ((64 + 55 - msg.length % 64) % 64) 0
      ++ beBytes 8 (8 * msg.length)

/-- Group a byte list into 32-bit big-endian words. -/
def bytesToWords (l : List Nat) : List Nat :=
  (List.range (l.length / 4)).map (fun i => beBytesToNat ((l.drop (4 * i)).take 4))

/-- Extend 16 message words to the 64-word schedule. -/
def sha256Schedule (ws : List Nat) : List Nat :=
  (List.range 48).foldl
    (fun w _ =>
      w ++ [(ssig1 (w.getD (w.length - 2) 0) + w.getD (w.length - 7) 0 +
             ssig0 (w.getD (w.length - 15) 0) + w.getD (w.length - 16) 0) % 2 ^ 32])
    ws

/-- One SHA-256 compression step over a 64-byte block. -/
def sha256Compress (h : List Nat) (block : List Nat) : List Nat :=
  let w := sha256Schedule (bytesToWords block)
  let st := (List.range 64).foldl
    (fun st i =>
      let t1 := (st.getD 7 0 + bsig1 (st.getD 4 0) +
                 sha256Ch (st.getD 4 0) (st.getD 5 0) (st.getD 6 0) +
                 sha256K.getD i 0 + w.getD i 0) % 2 ^ 32
      let t2 := (bsig0 (st.getD 0 0) + sha256Maj (st.getD 0 0) (st.getD 1 0) (st.getD 2 0)) % 2 ^ 32
      [(t1 + t2) % 2 ^ 32, st.getD 0 0, st.getD 1 0, st.getD 2 0,
       (st.getD 3 0 + t1) % 2 ^ 32, st.getD 4 0, st.getD 5 0, st.getD 6 0])
    h
  (List.range 8).map (fun i => (h.getD i 0 + st.getD i 0) % 2 ^ 32)

/-- `hashlib.sha256(msg).digest()` as a 32-byte list. -/
def sha256 (msg : List Nat) : List Nat :=
  let p := sha256Pad msg
  let hh := (List.range (p.length / 64)).foldl
    (fun h i => sha256Compress h ((p.drop (64 * i)).take 64)) sha256H0
  hh.foldr (fun w acc => beBytes 4 w ++ acc) []

/-! ## Seed derivation

Passwords are UTF-8 byte lists; the empty list is the empty password. -/

/-- `ImageLSBStegoPlugin._seed_from_password`: `0` for the empty password,
otherwise the first 8 bytes of SHA-256, big-endian. -/
def imageSeed (pw : List Nat) : Nat :=
  if pw = [] then 0 else beBytesToNat ((sha256 pw).take 8)

/-- The seed inside `VideoLSBStegoPlugin._rng`: first 8 bytes of SHA-256,
big-endian, with no empty-password special case. -/
def videoSeed (pw : List Nat) : Nat :=
  beBytesToNat ((sha256 pw).take 8)

/-! ## PKCS#7 padding (`Crypto.Util.Padding.pad/unpad`, block size 16) -/

/-- `pad(data, 16)`. -/
def pad16 (l : List Nat) : List Nat :=
  l ++ List.replicate (16 - l.length % 16) (16 - l.length % 16)

/-- `unpad(data, 16)`: `none` models the `ValueError` on invalid padding. -/
def unpad16 (l : List Nat) : Option (List Nat) :=
  let k := l.getD (l.length - 1) 0
  if l.length = 0 ∨ k = 0 ∨ 16 < k ∨ l.length < k then none
  else if (l.drop (l.length - k)).all (fun b => b = k) then some (l.take (l.length - k))
  else none

/-! ## Image adapter (`plugins/image_lsb_stego.py`)

The carrier is the flattened RGB byte array `flat` together with the
optional alpha channel `alpha` (one entry per pixel, `flat.length = 3 *
alpha.length` for well-formed RGBA data). The NumPy permutation of
`List.range capacity` is the parameter `perm`. -/

/-- `available_positions`: all RGB byte indices, skipping the 3 bytes of
every pixel whose alpha is exactly 0 (`np.repeat(alpha != 0, 3)`). -/
def availIdx (n : Nat) : Option (List Nat) → List Nat
  | none => List.range n
  | some alpha => (List.range n).filter (fun i => alpha.getD (i / 3) 0 ≠ 0)

/-- The framed blob of the image adapter:
`nameLen(4B) ∥ name ∥ payloadLen(4B) ∥ payload ∥ crc32(payload)(4B)`. -/
def imageFull (name payload : List Nat) : List Nat :=
  beBytes 4 name.length ++ name ++ beBytes 4 payload.length ++ payload
    ++ beBytes 4 (crc32 payload)

/-- UTF-8 bytes of the fallback name `"extracted.bin"` returned by image
extraction when the embedded name is empty. -/
def extractedBin : List Nat := [101, 120, 116, 114, 97, 99, 116, 101, 100, 46, 98, 105, 110]

/-- `ImageLSBStegoPlugin.embed`: frame, capacity-check against the valid
positions, then scatter-write the bits at `available_positions[perm[:nbits]]`.
Returns the modified RGB bytes together with the untouched alpha channel
(`arr_mod[..., :3] = flat`, alpha copied unchanged). -/
def imageEmbed (perm : List Nat) (flat : List Nat) (alpha : Option (List Nat))
    (payload name : List Nat) : Except StegoErr (List Nat × Option (List Nat)) :=
  let avail := availIdx flat.length alpha
  let bits := bytesToBits (imageFull name payload)
  if avail.length < bits.length then .error .capacity
  else .ok (writeBits flat (perm.map (fun i => avail.getD i 0)) bits, alpha)

/-- `ImageLSBStegoPlugin.extract`: re-derive the positions, read
`nameLen`, `name`, `payloadLen`, `payload`, `crc` progressively with the
sanity checks of the source, and verify the CRC. -/
def imageExtract (perm : List Nat) (flat : List Nat) (alpha : Option (List Nat)) :
    Except StegoErr (List Nat × List Nat) :=
  let avail := availIdx flat.length alpha
  let pos := perm.map (fun i => avail.getD i 0)
  let nameLen := beBytesToNat (bitsToBytes (readBitsAt flat pos 0 32))
  if 10 * 1024 < nameLen then .error .format
  else
    let nameBytes := bitsToBytes (readBitsAt flat pos 32 (nameLen * 8))
    let payloadLen := beBytesToNat (bitsToBytes (readBitsAt flat pos (32 + nameLen * 8) 32))
    if 200 * 1024 * 1024 < payloadLen then .error .format
    else if avail.length < 32 + nameLen * 8 + 32 + payloadLen * 8 + 32 then .error .format
    else
      let payload := bitsToBytes (readBitsAt flat pos (64 + nameLen * 8) (payloadLen * 8))
      let crcE := beBytesToNat (bitsToBytes (readBitsAt flat pos (64 + nameLen * 8 + payloadLen * 8) 32))
      if crcE ≠ crc32 payload then .error .integrity
      else .ok ((if nameBytes = [] then extractedBin else nameBytes), payload)

/-! ## Audio adapter (`plugins/audio_lsb_stego.py`)

Sequential LSB placement over 16-bit PCM samples (modelled as the position
list `List.range flat.length`). The AES-256-CBC block cipher of
PyCryptodome is external; it is modelled by the parameters `enc`/`dec`
(key → IV → data), with the fresh random IV passed in explicitly. -/

/-- `AudioLSBStegoPlugin._encrypt`: `iv + AES-CBC(key, iv, pad(data))`
with `key = sha256(password)`. -/
def audioEncrypt (enc : List Nat → List Nat → List Nat → List Nat)
    (pw iv data : List Nat) : List Nat :=
  iv ++ enc (sha256 pw) iv (pad16 data)

/-- `AudioLSBStegoPlugin._decrypt`: split off the 16-byte IV, decrypt,
unpad; `none` models the `ValueError` from `unpad`. -/
def audioDecrypt (dec : List Nat → List Nat → List Nat → List Nat)
    (pw data : List Nat) : Option (List Nat) :=
  unpad16 (dec (sha256 pw) (data.take 16) (data.drop 16))

/-- The stored payload bytes: encrypted iff the password is non-empty. -/
def audioPayloadBytes (enc : List Nat → List Nat → List Nat → List Nat)
    (pw iv payload : List Nat) : List Nat :=
  if pw = [] then payload else audioEncrypt enc pw iv payload

/-- The audio frame: `nameLen(4B) ∥ name ∥ payloadLen(4B) ∥ payloadBytes`.
There is no magic marker and no CRC field. -/
def audioFull (enc : List Nat → List Nat → List Nat → List Nat)
    (pw iv name payload : List Nat) : List Nat :=
  let pb := audioPayloadBytes enc pw iv payload
  beBytes 4 name.length ++ name ++ beBytes 4 pb.length ++ pb

/-- `AudioLSBStegoPlugin.embed`: frame, capacity check against the sample
count, then write the bits sequentially into the first LSBs. -/
def audioEmbed (enc : List Nat → List Nat → List Nat → List Nat)
    (pw iv : List Nat) (flat : List Nat) (payload name : List Nat) :
    Except StegoErr (List Nat) :=
  let full := audioFull enc pw iv name payload
  let bits := bytesToBits full
  if flat.length < bits.length then .error .capacity
  else .ok (writeBits flat (List.range flat.length) bits)

/-- `AudioLSBStegoPlugin.extract`: sequential reads of `nameLen`, `name`,
`payloadLen`, `payload`; decrypt only when the password is non-empty.
No sanity bounds and no checksum are checked. -/
def audioExtract (dec : List Nat → List Nat → List Nat → List Nat)
    (pw : List Nat) (flat : List Nat) : Except StegoErr (List Nat × List Nat) :=
  let pos := List.range flat.length
  let nameLen := beBytesToNat (bitsToBytes (readBitsAt flat pos 0 32))
  let name := bitsToBytes (readBitsAt flat pos 32 (nameLen * 8))
  let payloadLen := beBytesToNat (bitsToBytes (readBitsAt flat pos (32 + nameLen * 8) 32))
  let pdata := bitsToBytes (readBitsAt flat pos (32 + nameLen * 8 + 32) (payloadLen * 8))
  if pw = [] then .ok (name, pdata)
  else
    match audioDecrypt dec pw pdata with
    | some d => .ok (name, d)
    | none => .error .crypto

/-! ## Video adapter (`plugins/video_lsb_stego.py`)

The carrier is the flattened blue channel of the first frame; placement is
scattered by the permutation derived from `videoSeed`. -/

/-- UTF-8 bytes of the default name `"payload.bin"` substituted by video
embed for a missing/empty name. -/
def payloadBin : List Nat := [112, 97, 121, 108, 111, 97, 100, 46, 98, 105, 110]

/-- The video frame:
`nameLen(2B, ">H") ∥ name ∥ payloadLen(4B, ">I") ∥ payload ∥ crc32(payload)(4B)`. -/
def videoFull (name payload : List Nat) : List Nat :=
  beBytes 2 name.length ++ name ++ beBytes 4 payload.length ++ payload
    ++ beBytes 4 (crc32 payload)

/-- `VideoLSBStegoPlugin.embed` on the blue-channel bytes: substitute the
default name, reject names over 65535 bytes, frame, capacity check, then
write bit `i` at `blue[perm[i]]`. -/
def videoEmbed (perm : List Nat) (blue : List Nat) (payload name : List Nat) :
    Except StegoErr (List Nat) :=
  let name' := if name = [] then payloadBin else name
  if 65535 < name'.length then .error .format
  else
    let bits := bytesToBits (videoFull name' payload)
    if blue.length < bits.length then .error .capacity
    else .ok (writeBits blue perm bits)

/-- `VideoLSBStegoPlugin.extract`: read `fnameLen(16 bits)`, `fname`,
`payloadLen(32 bits)`, reject payload lengths outside `(0, 10_000_000]`,
then read payload and CRC and verify. -/
def videoExtract (perm : List Nat) (blue : List Nat) :
    Except StegoErr (List Nat × List Nat) :=
  let nameLen := beBytesToNat (bitsToBytes (readBitsAt blue perm 0 16))
  let name := bitsToBytes (readBitsAt blue perm 16 (nameLen * 8))
  let payloadLen := beBytesToNat (bitsToBytes (readBitsAt blue perm (16 + nameLen * 8) 32))
  if payloadLen = 0 ∨ 10000000 < payloadLen then .error .format
  else
    let payload := bitsToBytes (readBitsAt blue perm (48 + nameLen * 8) (payloadLen * 8))
    let crcE := beBytesToNat (bitsToBytes (readBitsAt blue perm (48 + nameLen * 8 + payloadLen * 8) 32))
    if crc32 payload ≠ crcE then .error .integrity
    else .ok (name, payload)

/-! ## Base64 (`base64.b64encode/b64decode`) -/

/-- ASCII code of the base64 character for a 6-bit value. -/
def b64Char (v : Nat) : Nat :=
  if v < 26 then 65 + v
  else if v < 52 then 97 + (v - 26)
  else if v < 62 then 48 + (v - 52)
  else if v = 62 then 43 else 47

/-- 6-bit value of a base64 ASCII character. -/
def b64Val (c : Nat) : Nat :=
  if 65 ≤ c ∧ c ≤ 90 then c - 65
  else if 97 ≤ c ∧ c ≤ 122 then c - 97 + 26
  else if 48 ≤ c ∧ c ≤ 57 then c - 48 + 52
  else if c = 43 then 62 else 63

/-- `base64.b64encode` over byte lists (61 is `'='`). -/
def b64encode : List Nat → List Nat
  | [] => []
  | [a] => [b64Char (a / 4), b64Char (a % 4 * 16), 61, 61]
  | [a, b] => [b64Char (a / 4), b64Char (a % 4 * 16 + b / 16), b64Char (b % 16 * 4), 61]
  | a :: b :: c :: rest =>
    b64Char (a / 4) :: b64Char (a % 4 * 16 + b / 16) :: b64Char (b % 16 * 4 + c / 64)
      :: b64Char (c % 64) :: b64encode rest

/-- `base64.b64decode` on canonically padded input. -/
def b64decode : List Nat → List Nat
  | c1 :: c2 :: c3 :: c4 :: rest =>
    if c3 = 61 then [b64Val c1 * 4 + b64Val c2 / 16]
    else if c4 = 61 then
      [b64Val c1 * 4 + b64Val c2 / 16, b64Val c2 % 16 * 16 + b64Val c3 / 4]
    else
      (b64Val c1 * 4 + b64Val c2 / 16) :: (b64Val c2 % 16 * 16 + b64Val c3 / 4)
        :: (b64Val c3 % 4 * 64 + b64Val c4) :: b64decode rest
  | _ => []

/-! ## Text adapter (`plugins/text_lsb_stego.py`)

The carrier is a list of Unicode code points. Bits are appended as the
zero-width characters U+200B (bit 0) / U+200C (bit 1), terminated by
U+200D. AES-256-GCM is external and modelled by the `encB`/`decB`
parameters (`decB` returning `none` models a MAC failure). -/

/-- U+200B, the bit-0 carrier. -/
def zw0 : Nat := 0x200B

/-- U+200C, the bit-1 carrier. -/
def zw1 : Nat := 0x200C

/-- U+200D, the terminator. -/
def zws : Nat := 0x200D

/-- `int(bits[i:i+8], 2)` over consecutive 8-bit chunks; a final short
chunk is parsed as-is (no zero padding), as in `_from_bits`. -/
def fromBitsText : List Bool → List Nat
  | b1 :: b2 :: b3 :: b4 :: b5 :: b6 :: b7 :: b8 :: rest =>
    bitsToNat [b1, b2, b3, b4, b5, b6, b7, b8] :: fromBitsText rest
  | [] => []
  | l => [bitsToNat l]

/-- The plaintext blob of the text adapter: `name ∥ NUL ∥ payload`
(`f"{payload_name}\0".encode() + payload`). -/
def textData (name payload : List Nat) : List Nat := name ++ 0 :: payload

/-- Split at the first NUL byte (`data.split(b"\0", 1)`); `none` models the
unpacking `ValueError` when no NUL is present. -/
def splitNul (l : List Nat) : Option (List Nat × List Nat) :=
  if 0 ∈ l then some (l.takeWhile (fun b => b ≠ 0), (l.dropWhile (fun b => b ≠ 0)).drop 1)
  else none

/-- `TextLSBStegoPlugin.embed`: encrypt (password non-empty), base64,
expand to bits, append as zero-width characters plus terminator. -/
def textEmbed (encB : List Nat → List Nat) (pw : List Nat) (cover : List Nat)
    (payload name : List Nat) : List Nat :=
  let data := textData name payload
  let data' := if pw = [] then data else encB data
  let bits := bytesToBits (b64encode data')
  cover ++ bits.map (fun b => if b then zw1 else zw0) ++ [zws]

/-- `TextLSBStegoPlugin.extract`: filter the zero-width characters, stop at
the terminator, base64-decode, decrypt, split name from payload. -/
def textExtract (decB : List Nat → Option (List Nat)) (pw : List Nat)
    (txt : List Nat) : Except StegoErr (List Nat × List Nat) :=
  let zw := txt.filter (fun c => c = zw0 ∨ c = zw1 ∨ c = zws)
  if zws ∉ zw then .error .format
  else
    let bits := (zw.takeWhile (fun c => c ≠ zws)).map (fun c => c == zw1)
    let data := b64decode (fromBitsText bits)
    match (if pw = [] then some data else decB data) with
    | none => .error .crypto
    | some d =>
      match splitNul d with
      | some np => .ok np
      | none => .error .format

/-! ## Lemmas: bits and bytes -/

theorem byteToBits_length (b : Nat) : (byteToBits b).length = 8 := rfl

theorem bytesToBits_append (l1 l2 : List Nat) :
    bytesToBits (l1 ++ l2) = bytesToBits l1 ++ bytesToBits l2 := by
  induction l1 with
  | nil => rfl
  | cons x l ih => simp [bytesToBits, ih]

theorem bytesToBits_length (l : List Nat) : (bytesToBits l).length = 8 * l.length := by
  induction l with
  | nil => rfl
  | cons x l ih => simp [bytesToBits, byteToBits, ih]; ring

theorem bytesToBits_drop (l : List Nat) (k : Nat) :
    (bytesToBits l).drop (8 * k) = bytesToBits (l.drop k) := by
  induction k generalizing l with
  | zero => simp
  | succ k ih =>
    cases l with
    | nil => simp [bytesToBits]
    | cons x l =>
      rw [bytesToBits, show 8 * (k + 1) = (byteToBits x).length + 8 * k by
            rw [byteToBits_length]; ring,
          List.drop_append, ih, List.drop_succ_cons]

theorem bitVal_testBit (b k : Nat) :
    (if b.testBit k then 1 else 0) = b / 2 ^ k % 2 := by
  rw [Nat.testBit_to_div_mod]
  rcases Nat.mod_two_eq_zero_or_one (b / 2 ^ k) with h | h <;> simp [h]

set_option maxRecDepth 4096 in
theorem bitsToNat_byteToBits_all : ∀ b, b < 256 → bitsToNat (byteToBits b) = b := by
  decide

theorem bitsToNat_byteToBits (b : Nat) (hb : b < 256) :
    bitsToNat (byteToBits b) = b :=
  bitsToNat_byteToBits_all b hb

theorem bitsToNat_lt (l : List Bool) : bitsToNat l < 2 ^ l.length := by
  suffices h : ∀ a, l.foldl (fun a b => 2 * a + (if b then 1 else 0)) a
      < (a + 1) * 2 ^ l.length by
    have := h 0
    simpa [bitsToNat] using this
  induction l with
  | nil => intro a; simp
  | cons x l ih =>
    intro a
    have h1 := ih (2 * a + (if x then 1 else 0))
    have h2 : (2 * a + (if x then 1 else 0) + 1) * 2 ^ l.length
        ≤ (a + 1) * 2 ^ (x :: l).length := by
      simp only [List.length_cons, pow_succ]
      rcases x with _ | _ <;> simp <;> ring_nf <;> nlinarith [Nat.pos_pow_of_pos l.length (show 0 < 2 by norm_num)]
    calc List.foldl _ _ (x :: l) = List.foldl _ (2 * a + (if x then 1 else 0)) l := rfl
      _ < _ := h1
      _ ≤ _ := h2

theorem bitsToNat_cons (x : Bool) (l : List Bool) :
    bitsToNat (x :: l) = (if x then 1 else 0) * 2 ^ l.length + bitsToNat l := by
  suffices h : ∀ a (l : List Bool), l.foldl (fun a b => 2 * a + (if b then 1 else 0)) a
      = a * 2 ^ l.length + bitsToNat l by
    rw [show bitsToNat (x :: l) = l.foldl _ (2 * 0 + (if x then 1 else 0)) from rfl, h]
    simp
  intro a l
  induction l generalizing a with
  | nil => simp [bitsToNat]
  | cons y l ih =>
    rw [List.foldl_cons, ih, show bitsToNat (y :: l) = l.foldl _ (2 * 0 + (if y then 1 else 0)) from rfl, ih]
    simp only [List.length_cons, pow_succ]
    ring

theorem bitsToNat_inj (l1 l2 : List Bool) (hl : l1.length = l2.length)
    (h : bitsToNat l1 = bitsToNat l2) : l1 = l2 := by
  induction l1 generalizing l2 with
  | nil => cases l2 with
    | nil => rfl
    | cons y l2 => simp at hl
  | cons x l1 ih =>
    cases l2 with
    | nil => simp at hl
    | cons y l2 =>
      simp only [List.length_cons, Nat.add_right_cancel_iff] at hl
      rw [bitsToNat_cons, bitsToNat_cons, hl] at h
      have h1 := bitsToNat_lt l1
      have h2 := bitsToNat_lt l2
      rw [hl] at h1
      have hxy : x = y := by
        rcases x with _ | _ <;> rcases y with _ | _ <;> simp_all <;> omega
      subst hxy
      have heq : bitsToNat l1 = bitsToNat l2 := by
        rcases x with _ | _ <;> simp at h <;> omega
      rw [ih l2 hl heq]

theorem packBitsAux_chunk8 (b1 b2 b3 b4 b5 b6 b7 b8 : Bool) (l : List Bool) :
    packBitsAux (b1 :: b2 :: b3 :: b4 :: b5 :: b6 :: b7 :: b8 :: l) 0 0
      = bitsToNat [b1, b2, b3, b4, b5, b6, b7, b8] :: packBitsAux l 0 0 := by
  simp [packBitsAux, bitsToNat]

theorem packBitsAux_chunk (C : List Bool) (l : List Bool) (hC : C.length = 8) :
    packBitsAux (C ++ l) 0 0 = bitsToNat C :: packBitsAux l 0 0 := by
  match C, hC with
  | [b1, b2, b3, b4, b5, b6, b7, b8], _ =>
    simpa using packBitsAux_chunk8 b1 b2 b3 b4 b5 b6 b7 b8 l

theorem bitsToBytes_byteToBits_append (b : Nat) (l : List Bool) (hb : b < 256) :
    bitsToBytes (byteToBits b ++ l) = b :: bitsToBytes l := by
  rw [bitsToBytes, packBitsAux_chunk _ _ (byteToBits_length b), bitsToNat_byteToBits b hb]
  rfl

theorem bitsToBytes_bytesToBits_append (A : List Nat) (l : List Bool)
    (hA : ∀ x ∈ A, x < 256) :
    bitsToBytes (bytesToBits A ++ l) = A ++ bitsToBytes l := by
  induction A with
  | nil => simp [bytesToBits]
  | cons x A ih =>
    simp only [bytesToBits, List.append_assoc]
    rw [bitsToBytes_byteToBits_append _ _ (hA x (by simp)), ih (fun y hy => hA y (by simp [hy]))]
    rfl

theorem bitsToBytes_bytesToBits (l : List Nat) (hl : ∀ x ∈ l, x < 256) :
    bitsToBytes (bytesToBits l) = l := by
  have := bitsToBytes_bytesToBits_append l [] hl
  simpa [bitsToBytes, packBitsAux] using this

theorem beBytes_length (w n : Nat) : (beBytes w n).length = w := by
  induction w generalizing n with
  | zero => rfl
  | succ w ih => simp [beBytes, ih]

theorem beBytes_lt (w n : Nat) : ∀ x ∈ beBytes w n, x < 256 := by
  induction w generalizing n with
  | zero => simp [beBytes]
  | succ w ih =>
    intro x hx
    simp only [beBytes, List.mem_cons] at hx
    rcases hx with h | h
    · omega
    · exact ih n x h

theorem beBytesToNat_cons (x : Nat) (l : List Nat) :
    beBytesToNat (x :: l) = x * 256 ^ l.length + beBytesToNat l := by
  suffices h : ∀ a (l : List Nat), l.foldl (fun a b => 256 * a + b) a
      = a * 256 ^ l.length + beBytesToNat l by
    rw [show beBytesToNat (x :: l) = l.foldl _ (256 * 0 + x) from rfl, h]
    simp
  intro a l
  induction l generalizing a with
  | nil => simp [beBytesToNat]
  | cons y l ih =>
    rw [List.foldl_cons, ih, show beBytesToNat (y :: l) = l.foldl _ (256 * 0 + y) from rfl, ih]
    simp only [List.length_cons, pow_succ]
    ring

theorem beBytesToNat_beBytes (w n : Nat) : beBytesToNat (beBytes w n) = n % 2 ^ (8 * w) := by
  induction w generalizing n with
  | zero => simp [beBytes, beBytesToNat, Nat.mod_one]
  | succ w ih =>
    rw [beBytes, beBytesToNat_cons, ih, beBytes_length]
    have h1 : 2 ^ (8 * (w + 1)) = 2 ^ (8 * w) * 256 := by
      rw [show 8 * (w + 1) = 8 * w + 8 by ring, pow_add]
      norm_num
    have h2 : 256 ^ w = 2 ^ (8 * w) := by
      rw [show (256 : Nat) = 2 ^ 8 by norm_num, ← pow_mul]
    rw [h1, Nat.mod_mul, h2]
    ring

theorem beBytesToNat_beBytes_of_lt (w n : Nat) (h : n < 2 ^ (8 * w)) :
    beBytesToNat (beBytes w n) = n := by
  rw [beBytesToNat_beBytes, Nat.mod_eq_of_lt h]

/-! ## Lemmas: scatter write / read -/

theorem writeBits_nil (f : List Nat) (bits : List Bool) : writeBits f [] bits = f := rfl

theorem writeBits_nilBits (f : List Nat) (pos : List Nat) : writeBits f pos [] = f := by
  cases pos <;> rfl

theorem writeBits_cons (f : List Nat) (p : Nat) (pos : List Nat) (b : Bool) (bits : List Bool) :
    writeBits f (p :: pos) (b :: bits)
      = writeBits (f.set p (writeLsb (f.getD p 0) b)) pos bits := rfl

theorem writeBits_length (f : List Nat) (pos : List Nat) (bits : List Bool) :
    (writeBits f pos bits).length = f.length := by
  induction pos generalizing f bits with
  | nil => rfl
  | cons p pos ih =>
    cases bits with
    | nil => rfl
    | cons b bits => rw [writeBits_cons, ih, List.length_set]

theorem writeBits_getD_not_mem (f : List Nat) (pos : List Nat) (bits : List Bool)
    (q : Nat) (hq : q ∉ pos) : (writeBits f pos bits).getD q 0 = f.getD q 0 := by
  induction pos generalizing f bits with
  | nil => rfl
  | cons p pos ih =>
    have hqp : q ≠ p ∧ q ∉ pos := by simpa [List.mem_cons, not_or] using hq
    cases bits with
    | nil => rfl
    | cons b bits =>
      rw [writeBits_cons, ih _ _ hqp.2]
      simp only [List.getD_eq_getElem?_getD]
      rw [List.getElem?_set_ne (fun h : p = q => hqp.1 h.symm)]

theorem testBit_zero_writeLsb (v : Nat) (b : Bool) : (writeLsb v b).testBit 0 = b := by
  rcases b with _ | _ <;> simp [writeLsb, Nat.testBit_to_div_mod] <;> omega

theorem writeBits_read (f : List Nat) (pos : List Nat) (bits : List Bool)
    (hnd : pos.Nodup) (hlen : bits.length ≤ pos.length)
    (hp : ∀ p ∈ pos, p < f.length) :
    ∀ k, k < bits.length →
      ((writeBits f pos bits).getD (pos.getD k 0) 0).testBit 0 = bits.getD k false := by
  induction pos generalizing f bits with
  | nil =>
    intro k hk
    simp only [List.length_nil, Nat.le_zero, List.length_eq_zero] at hlen
    subst hlen
    simp at hk
  | cons p pos ih =>
    cases bits with
    | nil => intro k hk; simp at hk
    | cons b bits =>
      intro k hk
      rw [writeBits_cons]
      cases k with
      | zero =>
        simp only [List.getD_cons_zero]
        rw [writeBits_getD_not_mem _ _ _ _ (by simp at hnd; exact hnd.1)]
        have hplen : p < f.length := hp p (List.mem_cons_self _ _)
        simp only [List.getD_eq_getElem?_getD]
        rw [List.getElem?_set_self (by simpa using hplen)]
        simpa using testBit_zero_writeLsb _ b
      | succ k =>
        simp only [List.getD_cons_succ]
        refine ih _ _ (by simp at hnd; exact hnd.2) (by simpa using hlen) ?_ k (by simpa using hk)
        intro q hqmem
        rw [List.length_set]
        exact hp q (List.mem_cons_of_mem _ hqmem)

theorem readBitsAt_length (flat pos : List Nat) (s n : Nat) (h : s + n ≤ pos.length) :
    (readBitsAt flat pos s n).length = n := by
  simp only [readBitsAt, List.length_map, List.length_take, List.length_drop]
  omega

theorem bytesToBits_take (l : List Nat) (k : Nat) :
    (bytesToBits l).take (8 * k) = bytesToBits (l.take k) := by
  induction k generalizing l with
  | zero => simp [bytesToBits]
  | succ k ih =>
    cases l with
    | nil => simp [bytesToBits]
    | cons x l =>
      rw [bytesToBits, show 8 * (k + 1) = (byteToBits x).length + 8 * k by
            rw [byteToBits_length]; ring,
          List.take_append, ih, List.take_succ_cons, bytesToBits]

/-- Reading back a byte-aligned slice of a scatter-written frame: writing the
bits of `full` at positions `pos[0], pos[1], …` and reading `8*b` bits starting
at index `8*a` recovers bytes `a, …, a+b-1` of `full`. -/
theorem readBack (f pos full : List Nat) (hnd : pos.Nodup)
    (hp : ∀ p ∈ pos, p < f.length) (hb : ∀ x ∈ full, x < 256)
    (hcap : 8 * full.length ≤ pos.length) (a b : Nat) (hab : a + b ≤ full.length) :
    bitsToBytes (readBitsAt (writeBits f pos (bytesToBits full)) pos (8 * a) (8 * b))
      = (full.drop a).take b := by
  have hbl : (bytesToBits full).length = 8 * full.length := bytesToBits_length full
  have hsl : 8 * a + 8 * b ≤ (bytesToBits full).length := by rw [hbl]; omega
  have hbits : readBitsAt (writeBits f pos (bytesToBits full)) pos (8 * a) (8 * b)
      = ((bytesToBits full).drop (8 * a)).take (8 * b) := by
    apply List.ext_getElem
    · rw [readBitsAt_length _ _ _ _ (by omega)]
      simp only [List.length_take, List.length_drop]
      omega
    · intro j h1 h2
      have hj : j < 8 * b := by
        rw [readBitsAt_length _ _ _ _ (by omega)] at h1; exact h1
      have hk : 8 * a + j < (bytesToBits full).length := by omega
      have hkp : 8 * a + j < pos.length := by omega
      simp only [readBitsAt, List.getElem_map, List.getElem_take, List.getElem_drop]
      have egd : pos.getD (8 * a + j) 0 = pos[8 * a + j] := by
        simp [List.getD_eq_getElem?_getD, List.getElem?_eq_getElem hkp]
      have egb : (bytesToBits full).getD (8 * a + j) false
          = (bytesToBits full)[8 * a + j] := by
        simp [List.getD_eq_getElem?_getD, List.getElem?_eq_getElem hk]
      have e2 := writeBits_read f pos (bytesToBits full) hnd (by omega) hp (8 * a + j) hk
      rw [egd, egb] at e2
      exact e2
  rw [hbits, bytesToBits_drop, bytesToBits_take,
      bitsToBytes_bytesToBits _ (fun x hx => hb x (List.mem_of_mem_drop (List.mem_of_mem_take hx)))]

/-! ## Lemmas: frame layout slices -/

theorem slice_exact (A B C : List Nat) (a b : Nat) (ha : A.length = a) (hb : B.length = b) :
    ((A ++ B ++ C).drop a).take b = B := by
  subst ha
  subst hb
  rw [List.append_assoc, List.drop_left, List.take_left]

theorem drop_exact (A B : List Nat) (a : Nat) (ha : A.length = a) : (A ++ B).drop a = B := by
  subst ha
  exact List.drop_left A B

theorem imageFull_length (n p : List Nat) :
    (imageFull n p).length = 12 + n.length + p.length := by
  simp [imageFull, beBytes_length]
  omega

theorem imageFull_bytes (n p : List Nat) (hn : ∀ x ∈ n, x < 256) (hp : ∀ x ∈ p, x < 256) :
    ∀ x ∈ imageFull n p, x < 256 := by
  intro x hx
  simp only [imageFull, List.mem_append] at hx
  rcases hx with ((((h | h) | h) | h) | h)
  · exact beBytes_lt 4 _ x h
  · exact hn x h
  · exact beBytes_lt 4 _ x h
  · exact hp x h
  · exact beBytes_lt 4 _ x h

theorem imageFull_slice0 (n p : List Nat) :
    ((imageFull n p).drop 0).take 4 = beBytes 4 n.length := by
  have := slice_exact [] (beBytes 4 n.length)
    (n ++ beBytes 4 p.length ++ p ++ beBytes 4 (crc32 p)) 0 4 rfl (beBytes_length 4 _)
  simpa [imageFull, List.append_assoc] using this

theorem imageFull_slice1 (n p : List Nat) :
    ((imageFull n p).drop 4).take n.length = n := by
  have := slice_exact (beBytes 4 n.length) n
    (beBytes 4 p.length ++ p ++ beBytes 4 (crc32 p)) 4 n.length (beBytes_length 4 _) rfl
  simpa [imageFull, List.append_assoc] using this

theorem imageFull_slice2 (n p : List Nat) :
    ((imageFull n p).drop (4 + n.length)).take 4 = beBytes 4 p.length := by
  have := slice_exact (beBytes 4 n.length ++ n) (beBytes 4 p.length)
    (p ++ beBytes 4 (crc32 p)) (4 + n.length) 4
    (by simp [beBytes_length]) (beBytes_length 4 _)
  simpa [imageFull, List.append_assoc] using this

theorem imageFull_slice3 (n p : List Nat) :
    ((imageFull n p).drop (8 + n.length)).take p.length = p := by
  have := slice_exact (beBytes 4 n.length ++ n ++ beBytes 4 p.length) p
    (beBytes 4 (crc32 p)) (8 + n.length) p.length
    (by simp [beBytes_length]; omega) rfl
  simpa [imageFull, List.append_assoc] using this

theorem imageFull_slice4 (n p : List Nat) :
    ((imageFull n p).drop (8 + n.length + p.length)).take 4 = beBytes 4 (crc32 p) := by
  have := slice_exact (beBytes 4 n.length ++ n ++ beBytes 4 p.length ++ p)
    (beBytes 4 (crc32 p)) [] (8 + n.length + p.length) 4
    (by simp [beBytes_length]; omega) (beBytes_length 4 _)
  simpa [imageFull, List.append_assoc] using this

theorem videoFull_length (n p : List Nat) :
    (videoFull n p).length = 10 + n.length + p.length := by
  simp [videoFull, beBytes_length]
  omega

theorem videoFull_bytes (n p : List Nat) (hn : ∀ x ∈ n, x < 256) (hp : ∀ x ∈ p, x < 256) :
    ∀ x ∈ videoFull n p, x < 256 := by
  intro x hx
  simp only [videoFull, List.mem_append] at hx
  rcases hx with ((((h | h) | h) | h) | h)
  · exact beBytes_lt 2 _ x h
  · exact hn x h
  · exact beBytes_lt 4 _ x h
  · exact hp x h
  · exact beBytes_lt 4 _ x h

theorem videoFull_slice0 (n p : List Nat) :
    ((videoFull n p).drop 0).take 2 = beBytes 2 n.length := by
  have := slice_exact [] (beBytes 2 n.length)
    (n ++ beBytes 4 p.length ++ p ++ beBytes 4 (crc32 p)) 0 2 rfl (beBytes_length 2 _)
  simpa [videoFull, List.append_assoc] using this

theorem videoFull_slice1 (n p : List Nat) :
    ((videoFull n p).drop 2).take n.length = n := by
  have := slice_exact (beBytes 2 n.length) n
    (beBytes 4 p.length ++ p ++ beBytes 4 (crc32 p)) 2 n.length (beBytes_length 2 _) rfl
  simpa [videoFull, List.append_assoc] using this

theorem videoFull_slice2 (n p : List Nat) :
    ((videoFull n p).drop (2 + n.length)).take 4 = beBytes 4 p.length := by
  have := slice_exact (beBytes 2 n.length ++ n) (beBytes 4 p.length)
    (p ++ beBytes 4 (crc32 p)) (2 + n.length) 4
    (by simp [beBytes_length]) (beBytes_length 4 _)
  simpa [videoFull, List.append_assoc] using this

theorem videoFull_slice3 (n p : List Nat) :
    ((videoFull n p).drop (6 + n.length)).take p.length = p := by
  have := slice_exact (beBytes 2 n.length ++ n ++ beBytes 4 p.length) p
    (beBytes 4 (crc32 p)) (6 + n.length) p.length
    (by simp [beBytes_length]; omega) rfl
  simpa [videoFull, List.append_assoc] using this

theorem videoFull_slice4 (n p : List Nat) :
    ((videoFull n p).drop (6 + n.length + p.length)).take 4 = beBytes 4 (crc32 p) := by
  have := slice_exact (beBytes 2 n.length ++ n ++ beBytes 4 p.length ++ p)
    (beBytes 4 (crc32 p)) [] (6 + n.length + p.length) 4
    (by simp [beBytes_length]; omega) (beBytes_length 4 _)
  simpa [videoFull, List.append_assoc] using this

theorem audioFull_length (enc : List Nat → List Nat → List Nat → List Nat)
    (pw iv n p : List Nat) :
    (audioFull enc pw iv n p).length = 8 + n.length + (audioPayloadBytes enc pw iv p).length := by
  simp [audioFull, beBytes_length]
  omega

theorem audioFull_bytes (enc : List Nat → List Nat → List Nat → List Nat)
    (pw iv n p : List Nat) (hn : ∀ x ∈ n, x < 256)
    (hp : ∀ x ∈ audioPayloadBytes enc pw iv p, x < 256) :
    ∀ x ∈ audioFull enc pw iv n p, x < 256 := by
  intro x hx
  simp only [audioFull, List.mem_append] at hx
  rcases hx with ((h | h) | h) | h
  · exact beBytes_lt 4 _ x h
  · exact hn x h
  · exact beBytes_lt 4 _ x h
  · exact hp x h

theorem audioFull_slice0 (enc : List Nat → List Nat → List Nat → List Nat)
    (pw iv n p : List Nat) :
    ((audioFull enc pw iv n p).drop 0).take 4 = beBytes 4 n.length := by
  have := slice_exact [] (beBytes 4 n.length)
    (n ++ beBytes 4 (audioPayloadBytes enc pw iv p).length ++ audioPayloadBytes enc pw iv p)
    0 4 rfl (beBytes_length 4 _)
  simpa [audioFull, List.append_assoc] using this

theorem audioFull_slice1 (enc : List Nat → List Nat → List Nat → List Nat)
    (pw iv n p : List Nat) :
    ((audioFull enc pw iv n p).drop 4).take n.length = n := by
  have := slice_exact (beBytes 4 n.length) n
    (beBytes 4 (audioPayloadBytes enc pw iv p).length ++ audioPayloadBytes enc pw iv p)
    4 n.length (beBytes_length 4 _) rfl
  simpa [audioFull, List.append_assoc] using this

theorem audioFull_slice2 (enc : List Nat → List Nat → List Nat → List Nat)
    (pw iv n p : List Nat) :
    ((audioFull enc pw iv n p).drop (4 + n.length)).take 4
      = beBytes 4 (audioPayloadBytes enc pw iv p).length := by
  have := slice_exact (beBytes 4 n.length ++ n)
    (beBytes 4 (audioPayloadBytes enc pw iv p).length) (audioPayloadBytes enc pw iv p)
    (4 + n.length) 4 (by simp [beBytes_length]) (beBytes_length 4 _)
  simpa [audioFull, List.append_assoc] using this

theorem audioFull_slice3 (enc : List Nat → List Nat → List Nat → List Nat)
    (pw iv n p : List Nat) :
    ((audioFull enc pw iv n p).drop (8 + n.length)).take (audioPayloadBytes enc pw iv p).length
      = audioPayloadBytes enc pw iv p := by
  have := slice_exact (beBytes 4 n.length ++ n ++ beBytes 4 (audioPayloadBytes enc pw iv p).length)
    (audioPayloadBytes enc pw iv p) [] (8 + n.length) (audioPayloadBytes enc pw iv p).length
    (by simp [beBytes_length]; omega) rfl
  simpa [audioFull, List.append_assoc] using this

/-! ## Lemmas: valid positions and CRC bound -/

theorem availIdx_nodup (n : Nat) (alpha : Option (List Nat)) : (availIdx n alpha).Nodup := by
  cases alpha with
  | none => exact List.nodup_range n
  | some a => exact (List.nodup_range n).filter _

theorem availIdx_mem_lt (n : Nat) (alpha : Option (List Nat)) :
    ∀ p ∈ availIdx n alpha, p < n := by
  cases alpha with
  | none => intro p hp; exact List.mem_range.mp hp
  | some a => intro p hp; exact List.mem_range.mp (List.mem_of_mem_filter hp)

theorem mapGetD_nodup (perm avail : List Nat) (hperm : perm.Nodup)
    (hmem : ∀ i ∈ perm, i < avail.length) (hav : avail.Nodup) :
    (perm.map (fun i => avail.getD i 0)).Nodup := by
  refine hperm.map_on ?_
  intro i hi j hj hij
  have hi' : i < avail.length := hmem i hi
  have hj' : j < avail.length := hmem j hj
  have e1 : avail.getD i 0 = avail[i] := by
    simp [List.getD_eq_getElem?_getD, List.getElem?_eq_getElem hi']
  have e2 : avail.getD j 0 = avail[j] := by
    simp [List.getD_eq_getElem?_getD, List.getElem?_eq_getElem hj']
  rw [e1, e2] at hij
  exact (hav.getElem_inj_iff).mp hij

theorem mapGetD_mem_lt (perm avail : List Nat) (n : Nat)
    (hmem : ∀ i ∈ perm, i < avail.length) (hlt : ∀ p ∈ avail, p < n) :
    ∀ q ∈ perm.map (fun i => avail.getD i 0), q < n := by
  intro q hq
  simp only [List.mem_map] at hq
  obtain ⟨i, hi, rfl⟩ := hq
  have hi' : i < avail.length := hmem i hi
  have e1 : avail.getD i 0 = avail[i] := by
    simp [List.getD_eq_getElem?_getD, List.getElem?_eq_getElem hi']
  rw [e1]
  exact hlt _ (List.getElem_mem hi')

theorem crc32Round_lt (s : Nat) (h : s < 2 ^ 32) : crc32Round s < 2 ^ 32 := by
  unfold crc32Round
  split
  · exact Nat.xor_lt_two_pow (by omega) (by norm_num)
  · omega

theorem crc32Round_iter_lt (m s : Nat) (h : s < 2 ^ 32) : crc32Round^[m] s < 2 ^ 32 := by
  induction m generalizing s with
  | zero => simpa using h
  | succ m ih =>
    rw [Function.iterate_succ_apply]
    exact ih _ (crc32Round_lt s h)

theorem crc32Byte_lt (s b : Nat) (hs : s < 2 ^ 32) (hb : b < 2 ^ 32) :
    crc32Byte s b < 2 ^ 32 :=
  crc32Round_iter_lt 8 _ (Nat.xor_lt_two_pow hs hb)

theorem crc32_foldl_lt (l : List Nat) (s : Nat) (hs : s < 2 ^ 32)
    (hl : ∀ x ∈ l, x < 256) : l.foldl crc32Byte s < 2 ^ 32 := by
  induction l generalizing s with
  | nil => simpa using hs
  | cons x l ih =>
    rw [List.foldl_cons]
    exact ih _ (crc32Byte_lt s x hs (by have := hl x (by simp); omega))
      (fun y hy => hl y (by simp [hy]))

theorem crc32_lt (l : List Nat) (hl : ∀ x ∈ l, x < 256) : crc32 l < 2 ^ 32 := by
  unfold crc32
  exact Nat.xor_lt_two_pow (crc32_foldl_lt l _ (by norm_num) hl) (by norm_num)

/-! ## Image adapter: extraction inverts embedding -/

theorem image_extract_embed (perm flat : List Nat) (alpha : Option (List Nat))
    (payload name : List Nat)
    (hperm : perm.Perm (List.range (availIdx flat.length alpha).length))
    (hnb : ∀ x ∈ name, x < 256) (hpb : ∀ x ∈ payload, x < 256)
    (hnl : name.length ≤ 10 * 1024) (hpl : payload.length ≤ 200 * 1024 * 1024)
    (hcap : 8 * (imageFull name payload).length ≤ (availIdx flat.length alpha).length) :
    imageEmbed perm flat alpha payload name
      = .ok (writeBits flat (perm.map fun i => (availIdx flat.length alpha).getD i 0)
              (bytesToBits (imageFull name payload)), alpha)
    ∧ imageExtract perm
        (writeBits flat (perm.map fun i => (availIdx flat.length alpha).getD i 0)
          (bytesToBits (imageFull name payload))) alpha
      = .ok ((if name = [] then extractedBin else name), payload) := by
  have hbl : (bytesToBits (imageFull name payload)).length = 8 * (imageFull name payload).length :=
    bytesToBits_length _
  constructor
  · rw [imageEmbed]
    rw [if_neg (by omega)]
  · set avail := availIdx flat.length alpha with havail
    set pos := perm.map fun i => avail.getD i 0 with hposdef
    set F := writeBits flat pos (bytesToBits (imageFull name payload)) with hFdef
    have hFlen : F.length = flat.length := writeBits_length _ _ _
    have hpermnd : perm.Nodup := hperm.nodup_iff.mpr (List.nodup_range _)
    have hpermmem : ∀ i ∈ perm, i < avail.length := by
      intro i hi
      exact List.mem_range.mp (hperm.mem_iff.mp hi)
    have hnd : pos.Nodup :=
      mapGetD_nodup perm avail hpermnd hpermmem (availIdx_nodup _ _)
    have hpflat : ∀ q ∈ pos, q < flat.length :=
      mapGetD_mem_lt perm avail flat.length hpermmem (availIdx_mem_lt _ _)
    have hposlen : pos.length = avail.length := by
      rw [hposdef, List.length_map, hperm.length_eq, List.length_range]
    have hfb : ∀ x ∈ imageFull name payload, x < 256 := imageFull_bytes _ _ hnb hpb
    have hcap' : 8 * (imageFull name payload).length ≤ pos.length := by omega
    have hfull : (imageFull name payload).length = 12 + name.length + payload.length :=
      imageFull_length _ _
    have rb := readBack flat pos (imageFull name payload) hnd hpflat hfb hcap'
    have r0 : beBytesToNat (bitsToBytes (readBitsAt F pos 0 32)) = name.length := by
      have := rb 0 4 (by omega)
      rw [show 8 * 0 = 0 by norm_num, show 8 * 4 = 32 by norm_num, imageFull_slice0] at this
      rw [← hFdef] at this
      rw [this, beBytesToNat_beBytes_of_lt]
      norm_num
      omega
    have r1 : bitsToBytes (readBitsAt F pos 32 (name.length * 8)) = name := by
      have := rb 4 name.length (by omega)
      rw [show 8 * 4 = 32 by norm_num, Nat.mul_comm 8 name.length, imageFull_slice1] at this
      rw [← hFdef] at this
      exact this
    have r2 : beBytesToNat (bitsToBytes (readBitsAt F pos (32 + name.length * 8) 32))
        = payload.length := by
      have := rb (4 + name.length) 4 (by omega)
      rw [show 8 * (4 + name.length) = 32 + name.length * 8 by ring,
          show 8 * 4 = 32 by norm_num, imageFull_slice2] at this
      rw [← hFdef] at this
      rw [this, beBytesToNat_beBytes_of_lt]
      norm_num
      omega
    have r3 : bitsToBytes (readBitsAt F pos (64 + name.length * 8) (payload.length * 8))
        = payload := by
      have := rb (8 + name.length) payload.length (by omega)
      rw [show 8 * (8 + name.length) = 64 + name.length * 8 by ring,
          Nat.mul_comm 8 payload.length, imageFull_slice3] at this
      rw [← hFdef] at this
      exact this
    have r4 : beBytesToNat (bitsToBytes
        (readBitsAt F pos (64 + name.length * 8 + payload.length * 8) 32)) = crc32 payload := by
      have := rb (8 + name.length + payload.length) 4 (by omega)
      rw [show 8 * (8 + name.length + payload.length)
            = 64 + name.length * 8 + payload.length * 8 by ring,
          show 8 * 4 = 32 by norm_num, imageFull_slice4] at this
      rw [← hFdef] at this
      rw [this, beBytesToNat_beBytes_of_lt]
      exact crc32_lt payload hpb
    rw [imageExtract, hFlen, ← havail, ← hposdef]
    rw [r0, if_neg (by omega)]
    rw [r1, r2, if_neg (by omega)]
    rw [if_neg (by omega)]
    rw [r3, r4, if_neg (by simp)]

/-! ## Video adapter: extraction of an embedded frame -/

theorem video_extract_embed (perm blue : List Nat) (payload name : List Nat)
    (hperm : perm.Perm (List.range blue.length))
    (hnb : ∀ x ∈ name, x < 256) (hpb : ∀ x ∈ payload, x < 256)
    (hnl : name.length ≤ 65535) (hpl : payload.length < 2 ^ 32)
    (hcap : 8 * (videoFull (if name = [] then payloadBin else name) payload).length
              ≤ blue.length) :
    videoEmbed perm blue payload name
      = .ok (writeBits blue perm
          (bytesToBits (videoFull (if name = [] then payloadBin else name) payload)))
    ∧ videoExtract perm (writeBits blue perm
          (bytesToBits (videoFull (if name = [] then payloadBin else name) payload)))
      = if payload.length = 0 ∨ 10000000 < payload.length then .error .format
        else .ok ((if name = [] then payloadBin else name), payload) := by
  set n' := if name = [] then payloadBin else name with hnndef
  have hnnb : ∀ x ∈ n', x < 256 := by
    rw [hnndef]
    split
    · decide
    · exact hnb
  have hnnl : n'.length ≤ 65535 := by
    rw [hnndef]
    split
    · decide
    · exact hnl
  have hbl : (bytesToBits (videoFull n' payload)).length = 8 * (videoFull n' payload).length :=
    bytesToBits_length _
  constructor
  · rw [videoEmbed, ← hnndef]
    rw [if_neg (by omega), if_neg (by omega)]
  · set F := writeBits blue perm (bytesToBits (videoFull n' payload)) with hFdef
    have hFlen : F.length = blue.length := writeBits_length _ _ _
    have hnd : perm.Nodup := hperm.nodup_iff.mpr (List.nodup_range _)
    have hpblue : ∀ q ∈ perm, q < blue.length := by
      intro q hq
      exact List.mem_range.mp (hperm.mem_iff.mp hq)
    have hposlen : perm.length = blue.length := by
      rw [hperm.length_eq, List.length_range]
    have hfb : ∀ x ∈ videoFull n' payload, x < 256 := videoFull_bytes _ _ hnnb hpb
    have hcap' : 8 * (videoFull n' payload).length ≤ perm.length := by omega
    have hfull : (videoFull n' payload).length = 10 + n'.length + payload.length :=
      videoFull_length _ _
    have rb := readBack blue perm (videoFull n' payload) hnd hpblue hfb hcap'
    have r0 : beBytesToNat (bitsToBytes (readBitsAt F perm 0 16)) = n'.length := by
      have := rb 0 2 (by omega)
      rw [show 8 * 0 = 0 by norm_num, show 8 * 2 = 16 by norm_num, videoFull_slice0] at this
      rw [← hFdef] at this
      rw [this, beBytesToNat_beBytes_of_lt]
      norm_num
      omega
    have r1 : bitsToBytes (readBitsAt F perm 16 (n'.length * 8)) = n' := by
      have := rb 2 n'.length (by omega)
      rw [show 8 * 2 = 16 by norm_num, Nat.mul_comm 8 n'.length, videoFull_slice1] at this
      rw [← hFdef] at this
      exact this
    have r2 : beBytesToNat (bitsToBytes (readBitsAt F perm (16 + n'.length * 8) 32))
        = payload.length := by
      have := rb (2 + n'.length) 4 (by omega)
      rw [show 8 * (2 + n'.length) = 16 + n'.length * 8 by ring,
          show 8 * 4 = 32 by norm_num, videoFull_slice2] at this
      rw [← hFdef] at this
      rw [this, beBytesToNat_beBytes_of_lt]
      norm_num
      omega
    rw [videoExtract]
    rw [r0, r1, r2]
    by_cases hc : payload.length = 0 ∨ 10000000 < payload.length
    · rw [if_pos hc, if_pos hc]
    · rw [if_neg hc, if_neg hc]
      have r3 : bitsToBytes (readBitsAt F perm (48 + n'.length * 8) (payload.length * 8))
          = payload := by
        have := rb (6 + n'.length) payload.length (by omega)
        rw [show 8 * (6 + n'.length) = 48 + n'.length * 8 by ring,
            Nat.mul_comm 8 payload.length, videoFull_slice3] at this
        rw [← hFdef] at this
        exact this
      have r4 : beBytesToNat (bitsToBytes
          (readBitsAt F perm (48 + n'.length * 8 + payload.length * 8) 32)) = crc32 payload := by
        have := rb (6 + n'.length + payload.length) 4 (by omega)
        rw [show 8 * (6 + n'.length + payload.length)
              = 48 + n'.length * 8 + payload.length * 8 by ring,
            show 8 * 4 = 32 by norm_num, videoFull_slice4] at this
        rw [← hFdef] at this
        rw [this, beBytesToNat_beBytes_of_lt]
        exact crc32_lt payload hpb
      rw [r3, r4, if_neg (by simp)]

/-! ## Audio adapter: extraction of an embedded frame -/

theorem unpad16_pad16 (l : List Nat) : unpad16 (pad16 l) = some l := by
  set k := 16 - l.length % 16 with hk
  have hk1 : 1 ≤ k := by omega
  have hk16 : k ≤ 16 := by omega
  have hlen : (pad16 l).length = l.length + k := by
    simp [pad16, ← hk]
  have hlast : (pad16 l).getD ((pad16 l).length - 1) 0 = k := by
    rw [hlen, pad16, ← hk]
    simp only [List.getD_eq_getElem?_getD]
    rw [List.getElem?_append_right (by omega)]
    rw [show l.length + k - 1 - l.length = k - 1 by omega]
    rw [List.getElem?_replicate, if_pos (by omega)]
    rfl
  have hlast' : (pad16 l).getD (l.length + k - 1) 0 = k := by
    rw [hlen] at hlast
    exact hlast
  rw [unpad16]
  simp only [hlen, hlast']
  rw [if_neg (by omega)]
  rw [if_pos]
  · rw [show l.length + k - k = l.length by omega, pad16, ← hk, List.take_left]
  · rw [show l.length + k - k = l.length by omega, pad16, ← hk, List.drop_left]
    simp [List.all_eq_true, List.mem_replicate]

theorem audio_extract_embed (enc dec : List Nat → List Nat → List Nat → List Nat)
    (pw iv flat payload name : List Nat)
    (hnb : ∀ x ∈ name, x < 256)
    (hpbb : ∀ x ∈ audioPayloadBytes enc pw iv payload, x < 256)
    (hnl : name.length < 2 ^ 32)
    (hplb : (audioPayloadBytes enc pw iv payload).length < 2 ^ 32)
    (hiv : iv.length = 16)
    (hcap : 8 * (audioFull enc pw iv name payload).length ≤ flat.length) :
    audioEmbed enc pw iv flat payload name
      = .ok (writeBits flat (List.range flat.length)
          (bytesToBits (audioFull enc pw iv name payload)))
    ∧ (∀ dec2 : List Nat → List Nat → List Nat → List Nat,
        audioExtract dec2 [] (writeBits flat (List.range flat.length)
            (bytesToBits (audioFull enc pw iv name payload)))
          = .ok (name, audioPayloadBytes enc pw iv payload))
    ∧ (dec (sha256 pw) iv (enc (sha256 pw) iv (pad16 payload)) = pad16 payload →
        audioExtract dec pw (writeBits flat (List.range flat.length)
            (bytesToBits (audioFull enc pw iv name payload)))
          = .ok (name, payload)) := by
  set pb := audioPayloadBytes enc pw iv payload with hpbdef
  have hbl : (bytesToBits (audioFull enc pw iv name payload)).length
      = 8 * (audioFull enc pw iv name payload).length := bytesToBits_length _
  have hemb : audioEmbed enc pw iv flat payload name
      = .ok (writeBits flat (List.range flat.length)
          (bytesToBits (audioFull enc pw iv name payload))) := by
    rw [audioEmbed]
    rw [if_neg (by omega)]
  refine ⟨hemb, ?_, ?_⟩
  all_goals
    set F := writeBits flat (List.range flat.length)
        (bytesToBits (audioFull enc pw iv name payload)) with hFdef
    have hFlen : F.length = flat.length := writeBits_length _ _ _
    have hnd : (List.range flat.length).Nodup := List.nodup_range _
    have hpr : ∀ q ∈ List.range flat.length, q < flat.length := by
      intro q hq; exact List.mem_range.mp hq
    have hposlen : (List.range flat.length).length = flat.length := List.length_range _
    have hfb : ∀ x ∈ audioFull enc pw iv name payload, x < 256 :=
      audioFull_bytes _ _ _ _ _ hnb (hpbdef ▸ hpbb)
    have hcap' : 8 * (audioFull enc pw iv name payload).length
        ≤ (List.range flat.length).length := by omega
    have hfull : (audioFull enc pw iv name payload).length = 8 + name.length + pb.length := by
      rw [audioFull_length, hpbdef]
    have rb := readBack flat (List.range flat.length) (audioFull enc pw iv name payload)
      hnd hpr hfb hcap'
    have r0 : beBytesToNat (bitsToBytes (readBitsAt F (List.range flat.length) 0 32))
        = name.length := by
      have := rb 0 4 (by omega)
      rw [show 8 * 0 = 0 by norm_num, show 8 * 4 = 32 by norm_num, audioFull_slice0] at this
      rw [← hFdef] at this
      rw [this, beBytesToNat_beBytes_of_lt]
      norm_num
      omega
    have r1 : bitsToBytes (readBitsAt F (List.range flat.length) 32 (name.length * 8))
        = name := by
      have := rb 4 name.length (by omega)
      rw [show 8 * 4 = 32 by norm_num, Nat.mul_comm 8 name.length, audioFull_slice1] at this
      rw [← hFdef] at this
      exact this
    have r2 : beBytesToNat (bitsToBytes
        (readBitsAt F (List.range flat.length) (32 + name.length * 8) 32)) = pb.length := by
      have := rb (4 + name.length) 4 (by omega)
      rw [show 8 * (4 + name.length) = 32 + name.length * 8 by ring,
          show 8 * 4 = 32 by norm_num, audioFull_slice2] at this
      rw [← hFdef] at this
      rw [this, ← hpbdef, beBytesToNat_beBytes_of_lt]
      omega
    have r3 : bitsToBytes (readBitsAt F (List.range flat.length)
        (32 + name.length * 8 + 32) (pb.length * 8)) = pb := by
      have := rb (8 + name.length) pb.length (by omega)
      rw [show 8 * (8 + name.length) = 32 + name.length * 8 + 32 by ring,
          Nat.mul_comm 8 pb.length, audioFull_slice3] at this
      rw [← hFdef, ← hpbdef] at this
      exact this
  · intro dec2
    rw [audioExtract, hFlen, r0, r1, r2, r3]
    rw [if_pos rfl]
  · intro hdec
    rw [audioExtract, hFlen, r0, r1, r2, r3]
    by_cases hpw : pw = []
    · rw [if_pos hpw]
      subst hpw
      rw [hpbdef, audioPayloadBytes, if_pos rfl]
    · rw [if_neg hpw]
      have hpb' : pb = iv ++ enc (sha256 pw) iv (pad16 payload) := by
        rw [hpbdef, audioPayloadBytes, if_neg hpw, audioEncrypt]
      rw [hpb', audioDecrypt]
      rw [List.take_left' hiv, List.drop_left' hiv, hdec, unpad16_pad16]

/-! ## Text adapter: base64 and zero-width round trip -/

theorem b64Val_b64Char : ∀ v, v < 64 → b64Val (b64Char v) = v := by decide

theorem b64Char_ne_61 : ∀ v, v < 64 → b64Char v ≠ 61 := by decide

theorem b64Char_lt : ∀ v, v < 64 → b64Char v < 256 := by decide

theorem b64encode_bytes (l : List Nat) (hl : ∀ x ∈ l, x < 256) :
    ∀ c ∈ b64encode l, c < 256 := by
  induction l using b64encode.induct with
  | case1 => simp [b64encode]
  | case2 a =>
    have ha : a < 256 := hl a (by simp)
    intro c hc
    simp only [b64encode, List.mem_cons, List.not_mem_nil, or_false] at hc
    rcases hc with rfl | rfl | rfl | rfl
    · exact b64Char_lt _ (by omega)
    · exact b64Char_lt _ (by omega)
    · omega
    · omega
  | case3 a b =>
    have ha : a < 256 := hl a (by simp)
    have hb : b < 256 := hl b (by simp)
    intro c hc
    simp only [b64encode, List.mem_cons, List.not_mem_nil, or_false] at hc
    rcases hc with rfl | rfl | rfl | rfl
    · exact b64Char_lt _ (by omega)
    · exact b64Char_lt _ (by omega)
    · exact b64Char_lt _ (by omega)
    · omega
  | case4 a b c' rest ih =>
    have ha : a < 256 := hl a (by simp)
    have hb : b < 256 := hl b (by simp)
    have hc' : c' < 256 := hl c' (by simp)
    intro c hc
    simp only [b64encode, List.mem_cons] at hc
    rcases hc with rfl | rfl | rfl | rfl | hc
    · exact b64Char_lt _ (by omega)
    · exact b64Char_lt _ (by omega)
    · exact b64Char_lt _ (by omega)
    · exact b64Char_lt _ (by omega)
    · exact ih (fun y hy => hl y (by simp [hy])) c hc

theorem b64decode_b64encode (l : List Nat) (hl : ∀ x ∈ l, x < 256) :
    b64decode (b64encode l) = l := by
  induction l using b64encode.induct with
  | case1 => rfl
  | case2 a =>
    have ha : a < 256 := hl a (by simp)
    rw [b64encode, b64decode]
    rw [if_pos rfl]
    rw [b64Val_b64Char _ (by omega), b64Val_b64Char _ (by omega)]
    congr 1
    omega
  | case3 a b =>
    have ha : a < 256 := hl a (by simp)
    have hb : b < 256 := hl b (by simp)
    rw [b64encode, b64decode]
    rw [if_neg (b64Char_ne_61 _ (by omega)), if_pos rfl]
    rw [b64Val_b64Char _ (by omega), b64Val_b64Char _ (by omega), b64Val_b64Char _ (by omega)]
    have e1 : b64Char (a / 4) = b64Char (a / 4) := rfl
    congr 1
    · omega
    · congr 1
      omega
  | case4 a b c rest ih =>
    have ha : a < 256 := hl a (by simp)
    have hb : b < 256 := hl b (by simp)
    have hc : c < 256 := hl c (by simp)
    rw [b64encode, b64decode]
    rw [if_neg (b64Char_ne_61 _ (by omega)), if_neg (b64Char_ne_61 _ (by omega))]
    rw [b64Val_b64Char _ (by omega), b64Val_b64Char _ (by omega),
        b64Val_b64Char _ (by omega), b64Val_b64Char _ (by omega)]
    rw [ih (fun y hy => hl y (by simp [hy]))]
    congr 1
    · omega
    · congr 1
      · omega
      · congr 1
        omega

theorem fromBitsText_bytesToBits (l : List Nat) (hl : ∀ x ∈ l, x < 256) :
    fromBitsText (bytesToBits l) = l := by
  induction l with
  | nil => rfl
  | cons x l ih =>
    have hx : bytesToBits (x :: l) = x.testBit 7 :: x.testBit 6 :: x.testBit 5 :: x.testBit 4 ::
        x.testBit 3 :: x.testBit 2 :: x.testBit 1 :: x.testBit 0 :: bytesToBits l := rfl
    rw [hx]
    show bitsToNat [x.testBit 7, x.testBit 6, x.testBit 5, x.testBit 4,
        x.testBit 3, x.testBit 2, x.testBit 1, x.testBit 0] :: fromBitsText (bytesToBits l)
      = x :: l
    rw [ih (fun y hy => hl y (by simp [hy]))]
    congr 1
    exact bitsToNat_byteToBits x (hl x (by simp))

theorem takeWhile_append_all {α : Type} (p : α → Bool) (l1 l2 : List α)
    (h : ∀ x ∈ l1, p x = true) :
    (l1 ++ l2).takeWhile p = l1 ++ l2.takeWhile p := by
  induction l1 with
  | nil => rfl
  | cons x l ih =>
    have hx := h x (by simp)
    simp [List.takeWhile_cons, hx, ih (fun y hy => h y (by simp [hy]))]

theorem dropWhile_append_all {α : Type} (p : α → Bool) (l1 l2 : List α)
    (h : ∀ x ∈ l1, p x = true) :
    (l1 ++ l2).dropWhile p = l2.dropWhile p := by
  induction l1 with
  | nil => rfl
  | cons x l ih =>
    have hx := h x (by simp)
    simp [List.dropWhile_cons, hx, ih (fun y hy => h y (by simp [hy]))]

theorem splitNul_textData (name payload : List Nat) (hnn : (0 : Nat) ∉ name) :
    splitNul (textData name payload) = some (name, payload) := by
  rw [splitNul, textData]
  rw [if_pos (by simp)]
  have hall : ∀ x ∈ name, (fun b => decide (b ≠ 0)) x = true := by
    intro x hx
    simp only [decide_eq_true_eq, ne_eq]
    intro h
    exact hnn (h ▸ hx)
  rw [takeWhile_append_all _ name (0 :: payload) hall,
      dropWhile_append_all _ name (0 :: payload) hall]
  simp [List.takeWhile_cons, List.dropWhile_cons]

theorem text_extract_embed (encB : List Nat → List Nat)
    (decB : List Nat → Option (List Nat)) (pw cover payload name : List Nat)
    (hcover : ∀ c ∈ cover, ¬(c = zw0 ∨ c = zw1 ∨ c = zws))
    (hdata : ∀ x ∈ (if pw = [] then textData name payload else encB (textData name payload)),
        x < 256)
    (hnn : (0 : Nat) ∉ name)
    (hdec : pw ≠ [] → decB (encB (textData name payload)) = some (textData name payload)) :
    textExtract decB pw (textEmbed encB pw cover payload name) = .ok (name, payload) := by
  set data' := if pw = [] then textData name payload else encB (textData name payload)
    with hdddef
  rw [textEmbed, ← hdddef]
  set bits := bytesToBits (b64encode data') with hbitsdef
  set zchars := bits.map (fun b => if b then zw1 else zw0) with hzdef
  have hzmem : ∀ c ∈ zchars, c = zw0 ∨ c = zw1 := by
    intro c hc
    rw [hzdef] at hc
    simp only [List.mem_map] at hc
    obtain ⟨b, _, rfl⟩ := hc
    rcases b with _ | _ <;> simp
  rw [textExtract]
  simp only []
  have hfilter : (cover ++ zchars ++ [zws]).filter
      (fun c => decide (c = zw0 ∨ c = zw1 ∨ c = zws)) = zchars ++ [zws] := by
    rw [List.filter_append, List.filter_append]
    have h1 : cover.filter (fun c => decide (c = zw0 ∨ c = zw1 ∨ c = zws)) = [] := by
      rw [List.filter_eq_nil_iff]
      intro c hc
      simpa using hcover c hc
    have h2 : zchars.filter (fun c => decide (c = zw0 ∨ c = zw1 ∨ c = zws)) = zchars := by
      rw [List.filter_eq_self]
      intro c hc
      rcases hzmem c hc with h | h <;> simp [h]
    rw [h1, h2]
    simp [zws]
  rw [hfilter]
  rw [if_neg (by simp)]
  have htw : (zchars ++ [zws]).takeWhile (fun c => decide (c ≠ zws)) = zchars := by
    rw [takeWhile_append_all]
    · simp [List.takeWhile_cons, zws]
    · intro c hc
      rcases hzmem c hc with h | h <;> simp [h, zw0, zw1, zws]
  rw [htw]
  have hmap : zchars.map (fun c => c == zw1) = bits := by
    rw [hzdef, List.map_map]
    have : ((fun c => c == zw1) ∘ fun b => if b then zw1 else zw0) = id := by
      funext b
      rcases b with _ | _ <;> simp [zw0, zw1]
    rw [this, List.map_id]
  rw [hmap, hbitsdef]
  rw [fromBitsText_bytesToBits _ (b64encode_bytes _ (hdddef ▸ hdata)),
      b64decode_b64encode _ (hdddef ▸ hdata)]
  by_cases hpw : pw = []
  · rw [if_pos hpw]
    rw [hdddef, if_pos hpw]
    simp [splitNul_textData name payload hnn]
  · rw [if_neg hpw]
    rw [hdddef, if_neg hpw]
    rw [hdec hpw]
    simp [splitNul_textData name payload hnn]

/-! ## CRC-32 detects any single-byte difference -/

/-- Explicit inverse of one CRC bit-step on 32-bit states. -/
def crc32RoundInv (y : Nat) : Nat :=
  if y.testBit 31 then 2 * (y ^^^ 0xEDB88320) + 1 else 2 * y

theorem xor_right_cancel (x y b : Nat) (h : x ^^^ b = y ^^^ b) : x = y := by
  have := congrArg (fun z => z ^^^ b) h
  simpa [Nat.xor_assoc] using this

theorem crc32RoundInv_round (s : Nat) (h : s < 2 ^ 32) :
    crc32RoundInv (crc32Round s) = s := by
  have hhalf : s / 2 < 2 ^ 31 := by omega
  rw [crc32Round]
  by_cases hodd : s % 2 = 1
  · rw [if_pos hodd, crc32RoundInv]
    have hbit : ((s / 2) ^^^ 0xEDB88320).testBit 31 = true := by
      rw [Nat.testBit_xor, Nat.testBit_eq_false_of_lt hhalf]
      decide
    rw [if_pos hbit, Nat.xor_assoc, Nat.xor_self, Nat.xor_zero]
    omega
  · rw [if_neg hodd, crc32RoundInv]
    rw [if_neg (by rw [Nat.testBit_eq_false_of_lt hhalf]; simp)]
    omega

theorem crc32RoundInv_iter (m s : Nat) (h : s < 2 ^ 32) :
    crc32RoundInv^[m] (crc32Round^[m] s) = s := by
  induction m generalizing s with
  | zero => rfl
  | succ m ih =>
    rw [Function.iterate_succ_apply, Function.iterate_succ_apply']
    rw [crc32RoundInv_round _ (crc32Round_iter_lt m s h), ih s h]

theorem crc32Byte_injOn (b s1 s2 : Nat) (h1 : s1 < 2 ^ 32) (h2 : s2 < 2 ^ 32)
    (hb : b < 2 ^ 32) (h : crc32Byte s1 b = crc32Byte s2 b) : s1 = s2 := by
  have e1 := crc32RoundInv_iter 8 (s1 ^^^ b) (Nat.xor_lt_two_pow h1 hb)
  have e2 := crc32RoundInv_iter 8 (s2 ^^^ b) (Nat.xor_lt_two_pow h2 hb)
  rw [crc32Byte] at h
  rw [crc32Byte] at h
  rw [h] at e1
  rw [e2] at e1
  exact (xor_right_cancel _ _ _ e1).symm

theorem crc_foldl_ne (l : List Nat) (s1 s2 : Nat) (hl : ∀ x ∈ l, x < 256)
    (h1 : s1 < 2 ^ 32) (h2 : s2 < 2 ^ 32) (hne : s1 ≠ s2) :
    l.foldl crc32Byte s1 ≠ l.foldl crc32Byte s2 := by
  induction l generalizing s1 s2 with
  | nil => simpa using hne
  | cons x l ih =>
    have hx : x < 256 := hl x (by simp)
    rw [List.foldl_cons, List.foldl_cons]
    refine ih _ _ (fun y hy => hl y (by simp [hy]))
      (crc32Byte_lt s1 x h1 (by omega)) (crc32Byte_lt s2 x h2 (by omega)) ?_
    intro heq
    exact hne (crc32Byte_injOn x s1 s2 h1 h2 (by omega) heq)

theorem crc32_ne_single (pre tail : List Nat) (b1 b2 : Nat)
    (hpre : ∀ x ∈ pre, x < 256) (htail : ∀ x ∈ tail, x < 256)
    (hb1 : b1 < 256) (hb2 : b2 < 256) (hne : b1 ≠ b2) :
    crc32 (pre ++ b1 :: tail) ≠ crc32 (pre ++ b2 :: tail) := by
  rw [crc32, crc32]
  intro h
  have h' := xor_right_cancel _ _ _ h
  rw [List.foldl_append, List.foldl_append, List.foldl_cons, List.foldl_cons] at h'
  have hs : pre.foldl crc32Byte 0xFFFFFFFF < 2 ^ 32 :=
    crc32_foldl_lt pre _ (by norm_num) hpre
  have hstep : crc32Byte (pre.foldl crc32Byte 0xFFFFFFFF) b1
      ≠ crc32Byte (pre.foldl crc32Byte 0xFFFFFFFF) b2 := by
    intro heq
    rw [crc32Byte, crc32Byte] at heq
    have e1 := crc32RoundInv_iter 8 (pre.foldl crc32Byte 0xFFFFFFFF ^^^ b1)
      (Nat.xor_lt_two_pow hs (by omega))
    have e2 := crc32RoundInv_iter 8 (pre.foldl crc32Byte 0xFFFFFFFF ^^^ b2)
      (Nat.xor_lt_two_pow hs (by omega))
    rw [heq, e2] at e1
    have := congrArg (fun z => (pre.foldl crc32Byte 0xFFFFFFFF) ^^^ z) e1
    simp only at this
    rw [← Nat.xor_assoc, ← Nat.xor_assoc, Nat.xor_self, Nat.zero_xor, Nat.zero_xor] at this
    exact hne this.symm
  exact crc_foldl_ne tail _ _ htail
    (crc32Byte_lt _ _ hs (by omega)) (crc32Byte_lt _ _ hs (by omega)) hstep h'

/-! ## Tampering: flipping one carried bit -/

/-- Flip the least significant bit (the carried payload bit) of carrier
unit `p`. -/
def flipLsb (l : List Nat) (p : Nat) : List Nat :=
  l.set p (l.getD p 0 ^^^ 1)

theorem testBit_zero_xor_one (v : Nat) : (v ^^^ 1).testBit 0 = !(v.testBit 0) := by
  rw [Nat.testBit_xor]
  simp

theorem readBitsAt_getD (f pos : List Nat) (s n t : Nat) (ht : t < n)
    (hsn : s + n ≤ pos.length) :
    (readBitsAt f pos s n).getD t false = ((f.getD (pos.getD (s + t) 0) 0)).testBit 0 := by
  have hlen : (readBitsAt f pos s n).length = n := readBitsAt_length _ _ _ _ hsn
  have ht' : t < (readBitsAt f pos s n).length := by omega
  have hst : s + t < pos.length := by omega
  simp only [List.getD_eq_getElem?_getD, List.getElem?_eq_getElem ht']
  simp only [readBitsAt, List.getElem_map, List.getElem_take, List.getElem_drop,
    Option.getD_some]
  congr 2
  simp [List.getElem?_eq_getElem hst]

theorem flipLsb_getD_ne (f : List Nat) (p q : Nat) (h : q ≠ p) :
    (flipLsb f p).getD q 0 = f.getD q 0 := by
  simp only [flipLsb, List.getD_eq_getElem?_getD]
  rw [List.getElem?_set_ne (fun hh => h hh.symm)]

theorem flipLsb_getD_self (f : List Nat) (p : Nat) (hp : p < f.length) :
    (flipLsb f p).getD p 0 = f.getD p 0 ^^^ 1 := by
  simp only [flipLsb, List.getD_eq_getElem?_getD]
  rw [List.getElem?_set_self (by simpa using hp)]
  rfl

theorem readBitsAt_flipLsb_outside (f pos : List Nat) (s n k0 : Nat)
    (hnd : pos.Nodup) (hk0 : k0 < pos.length) (hsn : s + n ≤ pos.length)
    (hout : k0 < s ∨ s + n ≤ k0) :
    readBitsAt (flipLsb f (pos.getD k0 0)) pos s n = readBitsAt f pos s n := by
  apply List.ext_getElem
  · simp [readBitsAt, flipLsb]
  · intro j h1 h2
    simp only [readBitsAt, List.getElem_map, List.getElem_take, List.getElem_drop]
    have hj : j < n := by
      simp only [readBitsAt, List.length_map, List.length_take, List.length_drop] at h1
      omega
    have hsj : s + j < pos.length := by omega
    have hne : s + j ≠ k0 := by omega
    have hposne : pos[s + j] ≠ pos.getD k0 0 := by
      have e2 : pos.getD k0 0 = pos[k0] := by
        simp [List.getD_eq_getElem?_getD, List.getElem?_eq_getElem hk0]
      rw [e2]
      intro h
      exact hne (hnd.getElem_inj_iff.mp h)
    rw [flipLsb_getD_ne f _ _ hposne]

theorem readBitsAt_flipLsb_inside (f pos : List Nat) (s n k0 : Nat)
    (hnd : pos.Nodup) (hs : s ≤ k0) (hk : k0 < s + n) (hsn : s + n ≤ pos.length)
    (hp : pos.getD k0 0 < f.length) :
    readBitsAt (flipLsb f (pos.getD k0 0)) pos s n
      = (readBitsAt f pos s n).set (k0 - s) (!((f.getD (pos.getD k0 0) 0).testBit 0)) := by
  apply List.ext_getElem
  · simp [readBitsAt, flipLsb]
  · intro j h1 h2
    have hj : j < n := by
      simp only [readBitsAt, List.length_map, List.length_take, List.length_drop, flipLsb,
        List.length_set] at h1
      omega
    have hsj : s + j < pos.length := by omega
    have hjlt : j < (readBitsAt f pos s n).length := by
      rw [readBitsAt_length _ _ _ _ hsn]; exact hj
    by_cases hjk : j = k0 - s
    · subst hjk
      rw [List.getElem_set_self (by simpa using hjlt)]
      simp only [readBitsAt, List.getElem_map, List.getElem_take, List.getElem_drop]
      simp only [show s + (k0 - s) = k0 from by omega]
      have e2 : pos[k0] = pos.getD k0 0 := by
        simp [List.getD_eq_getElem?_getD,
          List.getElem?_eq_getElem (show k0 < pos.length by omega)]
      rw [e2, flipLsb_getD_self f _ hp, testBit_zero_xor_one]
    · rw [List.getElem_set_ne (fun h => hjk h.symm)]
      simp only [readBitsAt, List.getElem_map, List.getElem_take, List.getElem_drop]
      have hne : s + j ≠ k0 := by omega
      have hposne : pos[s + j] ≠ pos.getD k0 0 := by
        have e2 : pos.getD k0 0 = pos[k0] := by
          simp [List.getD_eq_getElem?_getD,
            List.getElem?_eq_getElem (show k0 < pos.length by omega)]
        rw [e2]
        intro h
        exact hne (hnd.getElem_inj_iff.mp h)
      rw [flipLsb_getD_ne f _ _ hposne]

/-- Bit-level variant of `readBack`: the raw bits read off a byte-aligned
slice are the expanded bits of the frame slice. -/
theorem readBack_bits (f pos full : List Nat) (hnd : pos.Nodup)
    (hp : ∀ p ∈ pos, p < f.length)
    (hcap : 8 * full.length ≤ pos.length) (a b : Nat) (hab : a + b ≤ full.length) :
    readBitsAt (writeBits f pos (bytesToBits full)) pos (8 * a) (8 * b)
      = bytesToBits ((full.drop a).take b) := by
  have hbl : (bytesToBits full).length = 8 * full.length := bytesToBits_length full
  have hbits : readBitsAt (writeBits f pos (bytesToBits full)) pos (8 * a) (8 * b)
      = ((bytesToBits full).drop (8 * a)).take (8 * b) := by
    apply List.ext_getElem
    · rw [readBitsAt_length _ _ _ _ (by omega)]
      simp only [List.length_take, List.length_drop]
      omega
    · intro j h1 h2
      have hj : j < 8 * b := by
        rw [readBitsAt_length _ _ _ _ (by omega)] at h1; exact h1
      have hk : 8 * a + j < (bytesToBits full).length := by omega
      have hkp : 8 * a + j < pos.length := by omega
      simp only [readBitsAt, List.getElem_map, List.getElem_take, List.getElem_drop]
      have egd : pos.getD (8 * a + j) 0 = pos[8 * a + j] := by
        simp [List.getD_eq_getElem?_getD, List.getElem?_eq_getElem hkp]
      have egb : (bytesToBits full).getD (8 * a + j) false
          = (bytesToBits full)[8 * a + j] := by
        simp [List.getD_eq_getElem?_getD, List.getElem?_eq_getElem hk]
      have e2 := writeBits_read f pos (bytesToBits full) hnd (by omega) hp (8 * a + j) hk
      rw [egd, egb] at e2
      exact e2
  rw [hbits, bytesToBits_drop, bytesToBits_take]

/-- Flipping bit `t` of the expanded payload bits changes exactly byte
`t / 8` of the packed bytes, to a different byte value. -/
theorem payload_flip_decomp (p : List Nat) (t : Nat) (ht : t < 8 * p.length)
    (hpb : ∀ x ∈ p, x < 256) :
    ∃ c', c' < 256 ∧ c' ≠ p.getD (t / 8) 0 ∧
      bitsToBytes ((bytesToBits p).set t (!((bytesToBits p).getD t false)))
        = p.take (t / 8) ++ c' :: p.drop (t / 8 + 1) := by
  set q := t / 8 with hqdef
  set r := t % 8 with hrdef
  have hq : q < p.length := by omega
  have hr : r < 8 := by omega
  have htqr : t = 8 * q + r := by omega
  set A := p.take q with hAdef
  set c := p.getD q 0 with hcdef
  set B := p.drop (q + 1) with hBdef
  have hcp : c = p[q] := by
    simp [hcdef, List.getD_eq_getElem?_getD, List.getElem?_eq_getElem hq]
  have hdec : p = A ++ c :: B := by
    rw [hAdef, hBdef, hcp]
    rw [List.getElem_cons_drop p q hq]
    rw [List.take_append_drop]
  have hc256 : c < 256 := by
    rw [hcp]
    exact hpb _ (List.getElem_mem hq)
  have hAbytes : ∀ x ∈ A, x < 256 := fun x hx => hpb x (List.mem_of_mem_take hx)
  have hBbytes : ∀ x ∈ B, x < 256 := fun x hx => hpb x (List.mem_of_mem_drop hx)
  have hAlen : A.length = q := by
    rw [hAdef, List.length_take]
    omega
  have hbitsdec : bytesToBits p = bytesToBits A ++ (byteToBits c ++ bytesToBits B) := by
    conv_lhs => rw [hdec]
    rw [bytesToBits_append]
    rfl
  have hABlen : (bytesToBits A).length = 8 * q := by
    rw [bytesToBits_length, hAlen]
  have hgetd : (bytesToBits p).getD t false = (byteToBits c).getD r false := by
    rw [hbitsdec]
    simp only [List.getD_eq_getElem?_getD]
    rw [List.getElem?_append_right (by rw [hABlen]; omega), hABlen]
    rw [List.getElem?_append_left (by rw [byteToBits_length]; omega)]
    rw [show t - 8 * q = r from by omega]
  set b' := !((bytesToBits p).getD t false) with hbflipdef
  have hset : (bytesToBits p).set t b'
      = bytesToBits A ++ ((byteToBits c).set r b' ++ bytesToBits B) := by
    rw [hbitsdec, List.set_append_right _ _ (by rw [hABlen]; omega), hABlen]
    rw [show t - 8 * q = r by omega]
    rw [List.set_append_left _ _ (by rw [byteToBits_length]; omega)]
  have hCfliplen : ((byteToBits c).set r b').length = 8 := by
    rw [List.length_set, byteToBits_length]
  refine ⟨bitsToNat ((byteToBits c).set r b'), ?_, ?_, ?_⟩
  · have := bitsToNat_lt ((byteToBits c).set r b')
    rw [hCfliplen] at this
    omega
  · intro heq
    have hcbits : bitsToNat (byteToBits c) = c := bitsToNat_byteToBits c hc256
    have : (byteToBits c).set r b' = byteToBits c := by
      apply bitsToNat_inj _ _ (by rw [hCfliplen, byteToBits_length])
      rw [heq, hcbits]
    have hat : ((byteToBits c).set r b').getD r false = (byteToBits c).getD r false := by
      rw [this]
    rw [hbflipdef, hgetd] at hat
    have hrlen : r < (byteToBits c).length := by rw [byteToBits_length]; omega
    simp only [List.getD_eq_getElem?_getD, List.getElem?_set_self hrlen,
      Option.getD_some] at hat
    rw [List.getElem?_eq_getElem hrlen] at hat
    simp at hat
  · rw [hset, bitsToBytes_bytesToBits_append A _ hAbytes]
    rw [bitsToBytes, packBitsAux_chunk _ _ hCfliplen]
    rw [show packBitsAux (bytesToBits B) 0 0 = bitsToBytes (bytesToBits B) from rfl]
    rw [bitsToBytes_bytesToBits B hBbytes]

theorem flipLsb_length (l : List Nat) (p : Nat) : (flipLsb l p).length = l.length := by
  simp [flipLsb]

theorem take_getD_drop (p : List Nat) (q : Nat) (hq : q < p.length) :
    p = p.take q ++ p.getD q 0 :: p.drop (q + 1) := by
  have hcp : p.getD q 0 = p[q] := by
    simp [List.getD_eq_getElem?_getD, List.getElem?_eq_getElem hq]
  rw [hcp, List.getElem_cons_drop p q hq, List.take_append_drop]

/-- Flipping the carried bit of any unit that holds a payload bit makes
image extraction fail the CRC check. -/
theorem image_tamper (perm flat : List Nat) (alpha : Option (List Nat))
    (payload name : List Nat) (t : Nat)
    (hperm : perm.Perm (List.range (availIdx flat.length alpha).length))
    (hnb : ∀ x ∈ name, x < 256) (hpb : ∀ x ∈ payload, x < 256)
    (hnl : name.length ≤ 10 * 1024) (hpl : payload.length ≤ 200 * 1024 * 1024)
    (hcap : 8 * (imageFull name payload).length ≤ (availIdx flat.length alpha).length)
    (ht : t < payload.length * 8) :
    imageExtract perm
      (flipLsb
        (writeBits flat (perm.map fun i => (availIdx flat.length alpha).getD i 0)
          (bytesToBits (imageFull name payload)))
        ((perm.map fun i => (availIdx flat.length alpha).getD i 0).getD
          (64 + name.length * 8 + t) 0))
      alpha
      = .error .integrity := by
  have hbl : (bytesToBits (imageFull name payload)).length = 8 * (imageFull name payload).length :=
    bytesToBits_length _
  set avail := availIdx flat.length alpha with havail
  set pos := perm.map fun i => avail.getD i 0 with hposdef
  set F := writeBits flat pos (bytesToBits (imageFull name payload)) with hFdef
  set k0 := 64 + name.length * 8 + t with hk0def
  set F' := flipLsb F (pos.getD k0 0) with hFFdef
  have hFlen : F.length = flat.length := writeBits_length _ _ _
  have hFFlen : F'.length = flat.length := by rw [hFFdef, flipLsb_length, hFlen]
  have hpermnd : perm.Nodup := hperm.nodup_iff.mpr (List.nodup_range _)
  have hpermmem : ∀ i ∈ perm, i < avail.length := by
    intro i hi
    exact List.mem_range.mp (hperm.mem_iff.mp hi)
  have hnd : pos.Nodup :=
    mapGetD_nodup perm avail hpermnd hpermmem (availIdx_nodup _ _)
  have hpflat : ∀ q ∈ pos, q < flat.length :=
    mapGetD_mem_lt perm avail flat.length hpermmem (availIdx_mem_lt _ _)
  have hposlen : pos.length = avail.length := by
    rw [hposdef, List.length_map, hperm.length_eq, List.length_range]
  have hfb : ∀ x ∈ imageFull name payload, x < 256 := imageFull_bytes _ _ hnb hpb
  have hcap' : 8 * (imageFull name payload).length ≤ pos.length := by omega
  have hfull : (imageFull name payload).length = 12 + name.length + payload.length :=
    imageFull_length _ _
  have hk0lt : k0 < pos.length := by omega
  have hp0lt : pos.getD k0 0 < F.length := by
    rw [hFlen]
    refine hpflat _ ?_
    have : pos.getD k0 0 = pos[k0] := by
      simp [List.getD_eq_getElem?_getD, List.getElem?_eq_getElem hk0lt]
    rw [this]
    exact List.getElem_mem hk0lt
  have rbb := readBack_bits flat pos (imageFull name payload) hnd hpflat hcap'
  have rb := readBack flat pos (imageFull name payload) hnd hpflat hfb hcap'
  -- reads of the untampered carrier
  have r0 : beBytesToNat (bitsToBytes (readBitsAt F pos 0 32)) = name.length := by
    have := rb 0 4 (by omega)
    rw [show 8 * 0 = 0 by norm_num, show 8 * 4 = 32 by norm_num, imageFull_slice0] at this
    rw [← hFdef] at this
    rw [this, beBytesToNat_beBytes_of_lt]
    norm_num
    omega
  have r2 : beBytesToNat (bitsToBytes (readBitsAt F pos (32 + name.length * 8) 32))
      = payload.length := by
    have := rb (4 + name.length) 4 (by omega)
    rw [show 8 * (4 + name.length) = 32 + name.length * 8 by ring,
        show 8 * 4 = 32 by norm_num, imageFull_slice2] at this
    rw [← hFdef] at this
    rw [this, beBytesToNat_beBytes_of_lt]
    norm_num
    omega
  have r4 : beBytesToNat (bitsToBytes
      (readBitsAt F pos (64 + name.length * 8 + payload.length * 8) 32)) = crc32 payload := by
    have := rb (8 + name.length + payload.length) 4 (by omega)
    rw [show 8 * (8 + name.length + payload.length)
          = 64 + name.length * 8 + payload.length * 8 by ring,
        show 8 * 4 = 32 by norm_num, imageFull_slice4] at this
    rw [← hFdef] at this
    rw [this, beBytesToNat_beBytes_of_lt]
    exact crc32_lt payload hpb
  have rpb : readBitsAt F pos (64 + name.length * 8) (payload.length * 8)
      = bytesToBits payload := by
    have := rbb (8 + name.length) payload.length (by omega)
    rw [show 8 * (8 + name.length) = 64 + name.length * 8 by ring,
        Nat.mul_comm 8 payload.length, imageFull_slice3] at this
    rw [← hFdef] at this
    exact this
  -- reads of the tampered carrier
  have f0 : readBitsAt F' pos 0 32 = readBitsAt F pos 0 32 := by
    rw [hFFdef]
    exact readBitsAt_flipLsb_outside F pos 0 32 k0 hnd hk0lt (by omega) (by omega)
  have f1 : readBitsAt F' pos 32 (name.length * 8)
      = readBitsAt F pos 32 (name.length * 8) := by
    rw [hFFdef]
    exact readBitsAt_flipLsb_outside F pos 32 (name.length * 8) k0 hnd hk0lt
      (by omega) (by omega)
  have f2 : readBitsAt F' pos (32 + name.length * 8) 32
      = readBitsAt F pos (32 + name.length * 8) 32 := by
    rw [hFFdef]
    exact readBitsAt_flipLsb_outside F pos (32 + name.length * 8) 32 k0 hnd hk0lt
      (by omega) (by omega)
  have f4 : readBitsAt F' pos (64 + name.length * 8 + payload.length * 8) 32
      = readBitsAt F pos (64 + name.length * 8 + payload.length * 8) 32 := by
    rw [hFFdef]
    exact readBitsAt_flipLsb_outside F pos (64 + name.length * 8 + payload.length * 8) 32
      k0 hnd hk0lt (by omega) (by omega)
  have f3 : readBitsAt F' pos (64 + name.length * 8) (payload.length * 8)
      = (readBitsAt F pos (64 + name.length * 8) (payload.length * 8)).set t
          (!((F.getD (pos.getD k0 0) 0).testBit 0)) := by
    rw [hFFdef]
    have := readBitsAt_flipLsb_inside F pos (64 + name.length * 8) (payload.length * 8) k0
      hnd (by omega) (by omega) (by omega) hp0lt
    rw [show k0 - (64 + name.length * 8) = t by omega] at this
    exact this
  have hbitval : (F.getD (pos.getD k0 0) 0).testBit 0
      = (bytesToBits payload).getD t false := by
    have := readBitsAt_getD F pos (64 + name.length * 8) (payload.length * 8) t ht (by omega)
    rw [show 64 + name.length * 8 + t = k0 from rfl] at this
    rw [← this, rpb]
  obtain ⟨c', hcfliplt, hcflipne, hcflipeq⟩ := payload_flip_decomp payload t (by omega) hpb
  have hpayflip : bitsToBytes (readBitsAt F' pos (64 + name.length * 8) (payload.length * 8))
      = payload.take (t / 8) ++ c' :: payload.drop (t / 8 + 1) := by
    rw [f3, rpb, hbitval, hcflipeq]
  have hqlt : t / 8 < payload.length := by omega
  have hcrcne : crc32 payload
      ≠ crc32 (payload.take (t / 8) ++ c' :: payload.drop (t / 8 + 1)) := by
    conv_lhs => rw [take_getD_drop payload (t / 8) hqlt]
    refine crc32_ne_single _ _ _ _
      (fun x hx => hpb x (List.mem_of_mem_take hx))
      (fun x hx => hpb x (List.mem_of_mem_drop hx))
      ?_ hcfliplt (fun h => hcflipne h.symm)
    have : payload.getD (t / 8) 0 = payload[t / 8] := by
      simp [List.getD_eq_getElem?_getD, List.getElem?_eq_getElem hqlt]
    rw [this]
    exact hpb _ (List.getElem_mem hqlt)
  rw [imageExtract, hFFlen, ← havail, ← hposdef]
  rw [f0, r0, if_neg (by omega)]
  rw [f2, r2, if_neg (by omega)]
  rw [if_neg (by omega)]
  rw [f4, r4, hpayflip]
  rw [if_pos (by exact hcrcne)]

/-- Flipping the carried bit of any payload-bit unit makes video extraction
fail the CRC check. -/
theorem video_tamper (perm blue : List Nat) (payload name : List Nat) (t : Nat)
    (hperm : perm.Perm (List.range blue.length))
    (hnb : ∀ x ∈ name, x < 256) (hpb : ∀ x ∈ payload, x < 256)
    (hnl : name.length ≤ 65535)
    (hpl1 : 1 ≤ payload.length) (hpl : payload.length ≤ 10000000)
    (hcap : 8 * (videoFull (if name = [] then payloadBin else name) payload).length
              ≤ blue.length)
    (ht : t < payload.length * 8) :
    videoExtract perm
      (flipLsb
        (writeBits blue perm
          (bytesToBits (videoFull (if name = [] then payloadBin else name) payload)))
        (perm.getD (48 + (if name = [] then payloadBin else name).length * 8 + t) 0))
      = .error .integrity := by
  set n' := if name = [] then payloadBin else name with hnndef
  have hnnb : ∀ x ∈ n', x < 256 := by
    rw [hnndef]
    split
    · decide
    · exact hnb
  have hnnl : n'.length ≤ 65535 := by
    rw [hnndef]
    split
    · decide
    · exact hnl
  have hbl : (bytesToBits (videoFull n' payload)).length = 8 * (videoFull n' payload).length :=
    bytesToBits_length _
  set F := writeBits blue perm (bytesToBits (videoFull n' payload)) with hFdef
  set k0 := 48 + n'.length * 8 + t with hk0def
  set F' := flipLsb F (perm.getD k0 0) with hFFdef
  have hFlen : F.length = blue.length := writeBits_length _ _ _
  have hFFlen : F'.length = blue.length := by rw [hFFdef, flipLsb_length, hFlen]
  have hnd : perm.Nodup := hperm.nodup_iff.mpr (List.nodup_range _)
  have hpblue : ∀ q ∈ perm, q < blue.length := by
    intro q hq
    exact List.mem_range.mp (hperm.mem_iff.mp hq)
  have hposlen : perm.length = blue.length := by
    rw [hperm.length_eq, List.length_range]
  have hfb : ∀ x ∈ videoFull n' payload, x < 256 := videoFull_bytes _ _ hnnb hpb
  have hcap' : 8 * (videoFull n' payload).length ≤ perm.length := by omega
  have hfull : (videoFull n' payload).length = 10 + n'.length + payload.length :=
    videoFull_length _ _
  have hk0lt : k0 < perm.length := by omega
  have hp0lt : perm.getD k0 0 < F.length := by
    rw [hFlen]
    refine hpblue _ ?_
    have : perm.getD k0 0 = perm[k0] := by
      simp [List.getD_eq_getElem?_getD, List.getElem?_eq_getElem hk0lt]
    rw [this]
    exact List.getElem_mem hk0lt
  have rbb := readBack_bits blue perm (videoFull n' payload) hnd hpblue hcap'
  have rb := readBack blue perm (videoFull n' payload) hnd hpblue hfb hcap'
  have r0 : beBytesToNat (bitsToBytes (readBitsAt F perm 0 16)) = n'.length := by
    have := rb 0 2 (by omega)
    rw [show 8 * 0 = 0 by norm_num, show 8 * 2 = 16 by norm_num, videoFull_slice0] at this
    rw [← hFdef] at this
    rw [this, beBytesToNat_beBytes_of_lt]
    norm_num
    omega
  have r2 : beBytesToNat (bitsToBytes (readBitsAt F perm (16 + n'.length * 8) 32))
      = payload.length := by
    have := rb (2 + n'.length) 4 (by omega)
    rw [show 8 * (2 + n'.length) = 16 + n'.length * 8 by ring,
        show 8 * 4 = 32 by norm_num, videoFull_slice2] at this
    rw [← hFdef] at this
    rw [this, beBytesToNat_beBytes_of_lt]
    norm_num
    omega
  have r4 : beBytesToNat (bitsToBytes
      (readBitsAt F perm (48 + n'.length * 8 + payload.length * 8) 32)) = crc32 payload := by
    have := rb (6 + n'.length + payload.length) 4 (by omega)
    rw [show 8 * (6 + n'.length + payload.length)
          = 48 + n'.length * 8 + payload.length * 8 by ring,
        show 8 * 4 = 32 by norm_num, videoFull_slice4] at this
    rw [← hFdef] at this
    rw [this, beBytesToNat_beBytes_of_lt]
    exact crc32_lt payload hpb
  have rpb : readBitsAt F perm (48 + n'.length * 8) (payload.length * 8)
      = bytesToBits payload := by
    have := rbb (6 + n'.length) payload.length (by omega)
    rw [show 8 * (6 + n'.length) = 48 + n'.length * 8 by ring,
        Nat.mul_comm 8 payload.length, videoFull_slice3] at this
    rw [← hFdef] at this
    exact this
  have f0 : readBitsAt F' perm 0 16 = readBitsAt F perm 0 16 := by
    rw [hFFdef]
    exact readBitsAt_flipLsb_outside F perm 0 16 k0 hnd hk0lt (by omega) (by omega)
  have f1 : readBitsAt F' perm 16 (n'.length * 8) = readBitsAt F perm 16 (n'.length * 8) := by
    rw [hFFdef]
    exact readBitsAt_flipLsb_outside F perm 16 (n'.length * 8) k0 hnd hk0lt
      (by omega) (by omega)
  have f2 : readBitsAt F' perm (16 + n'.length * 8) 32
      = readBitsAt F perm (16 + n'.length * 8) 32 := by
    rw [hFFdef]
    exact readBitsAt_flipLsb_outside F perm (16 + n'.length * 8) 32 k0 hnd hk0lt
      (by omega) (by omega)
  have f4 : readBitsAt F' perm (48 + n'.length * 8 + payload.length * 8) 32
      = readBitsAt F perm (48 + n'.length * 8 + payload.length * 8) 32 := by
    rw [hFFdef]
    exact readBitsAt_flipLsb_outside F perm (48 + n'.length * 8 + payload.length * 8) 32
      k0 hnd hk0lt (by omega) (by omega)
  have f3 : readBitsAt F' perm (48 + n'.length * 8) (payload.length * 8)
      = (readBitsAt F perm (48 + n'.length * 8) (payload.length * 8)).set t
          (!((F.getD (perm.getD k0 0) 0).testBit 0)) := by
    rw [hFFdef]
    have := readBitsAt_flipLsb_inside F perm (48 + n'.length * 8) (payload.length * 8) k0
      hnd (by omega) (by omega) (by omega) hp0lt
    rw [show k0 - (48 + n'.length * 8) = t by omega] at this
    exact this
  have hbitval : (F.getD (perm.getD k0 0) 0).testBit 0
      = (bytesToBits payload).getD t false := by
    have := readBitsAt_getD F perm (48 + n'.length * 8) (payload.length * 8) t ht (by omega)
    rw [show 48 + n'.length * 8 + t = k0 from rfl] at this
    rw [← this, rpb]
  obtain ⟨c', hcfliplt, hcflipne, hcflipeq⟩ := payload_flip_decomp payload t (by omega) hpb
  have hpayflip : bitsToBytes (readBitsAt F' perm (48 + n'.length * 8) (payload.length * 8))
      = payload.take (t / 8) ++ c' :: payload.drop (t / 8 + 1) := by
    rw [f3, rpb, hbitval, hcflipeq]
  have hqlt : t / 8 < payload.length := by omega
  have hcrcne : crc32 (payload.take (t / 8) ++ c' :: payload.drop (t / 8 + 1))
      ≠ crc32 payload := by
    conv_rhs => rw [take_getD_drop payload (t / 8) hqlt]
    refine fun h => ?_
    refine crc32_ne_single (payload.take (t / 8)) (payload.drop (t / 8 + 1))
      (payload.getD (t / 8) 0) c'
      (fun x hx => hpb x (List.mem_of_mem_take hx))
      (fun x hx => hpb x (List.mem_of_mem_drop hx))
      ?_ hcfliplt (fun hh => hcflipne hh.symm) h.symm
    have : payload.getD (t / 8) 0 = payload[t / 8] := by
      simp [List.getD_eq_getElem?_getD, List.getElem?_eq_getElem hqlt]
    rw [this]
    exact hpb _ (List.getElem_mem hqlt)
  rw [videoExtract]
  rw [f0, r0, f2, r2, if_neg (by omega)]
  rw [hpayflip, f4, r4]
  rw [if_pos hcrcne]

/-! ## Image adapter: sanity-bound rejections -/

theorem image_extract_name_too_long (perm flat : List Nat) (alpha : Option (List Nat))
    (payload name : List Nat)
    (hperm : perm.Perm (List.range (availIdx flat.length alpha).length))
    (hnb : ∀ x ∈ name, x < 256) (hpb : ∀ x ∈ payload, x < 256)
    (hnl32 : name.length < 2 ^ 32) (hbig : 10 * 1024 < name.length)
    (hcap : 8 * (imageFull name payload).length ≤ (availIdx flat.length alpha).length) :
    imageExtract perm
      (writeBits flat (perm.map fun i => (availIdx flat.length alpha).getD i 0)
        (bytesToBits (imageFull name payload))) alpha
      = .error .format := by
  set avail := availIdx flat.length alpha with havail
  set pos := perm.map fun i => avail.getD i 0 with hposdef
  set F := writeBits flat pos (bytesToBits (imageFull name payload)) with hFdef
  have hFlen : F.length = flat.length := writeBits_length _ _ _
  have hpermnd : perm.Nodup := hperm.nodup_iff.mpr (List.nodup_range _)
  have hpermmem : ∀ i ∈ perm, i < avail.length := by
    intro i hi
    exact List.mem_range.mp (hperm.mem_iff.mp hi)
  have hnd : pos.Nodup :=
    mapGetD_nodup perm avail hpermnd hpermmem (availIdx_nodup _ _)
  have hpflat : ∀ q ∈ pos, q < flat.length :=
    mapGetD_mem_lt perm avail flat.length hpermmem (availIdx_mem_lt _ _)
  have hposlen : pos.length = avail.length := by
    rw [hposdef, List.length_map, hperm.length_eq, List.length_range]
  have hfb : ∀ x ∈ imageFull name payload, x < 256 := imageFull_bytes _ _ hnb hpb
  have hcap' : 8 * (imageFull name payload).length ≤ pos.length := by omega
  have hfull : (imageFull name payload).length = 12 + name.length + payload.length :=
    imageFull_length _ _
  have rb := readBack flat pos (imageFull name payload) hnd hpflat hfb hcap'
  have r0 : beBytesToNat (bitsToBytes (readBitsAt F pos 0 32)) = name.length := by
    have := rb 0 4 (by omega)
    rw [show 8 * 0 = 0 by norm_num, show 8 * 4 = 32 by norm_num, imageFull_slice0] at this
    rw [← hFdef] at this
    rw [this, beBytesToNat_beBytes_of_lt]
    norm_num
    omega
  rw [imageExtract, hFlen, ← havail, ← hposdef]
  rw [r0, if_pos hbig]

theorem image_extract_payload_too_long (perm flat : List Nat) (alpha : Option (List Nat))
    (payload name : List Nat)
    (hperm : perm.Perm (List.range (availIdx flat.length alpha).length))
    (hnb : ∀ x ∈ name, x < 256) (hpb : ∀ x ∈ payload, x < 256)
    (hnl : name.length ≤ 10 * 1024) (hpl32 : payload.length < 2 ^ 32)
    (hbig : 200 * 1024 * 1024 < payload.length)
    (hcap : 8 * (imageFull name payload).length ≤ (availIdx flat.length alpha).length) :
    imageExtract perm
      (writeBits flat (perm.map fun i => (availIdx flat.length alpha).getD i 0)
        (bytesToBits (imageFull name payload))) alpha
      = .error .format := by
  set avail := availIdx flat.length alpha with havail
  set pos := perm.map fun i => avail.getD i 0 with hposdef
  set F := writeBits flat pos (bytesToBits (imageFull name payload)) with hFdef
  have hFlen : F.length = flat.length := writeBits_length _ _ _
  have hpermnd : perm.Nodup := hperm.nodup_iff.mpr (List.nodup_range _)
  have hpermmem : ∀ i ∈ perm, i < avail.length := by
    intro i hi
    exact List.mem_range.mp (hperm.mem_iff.mp hi)
  have hnd : pos.Nodup :=
    mapGetD_nodup perm avail hpermnd hpermmem (availIdx_nodup _ _)
  have hpflat : ∀ q ∈ pos, q < flat.length :=
    mapGetD_mem_lt perm avail flat.length hpermmem (availIdx_mem_lt _ _)
  have hposlen : pos.length = avail.length := by
    rw [hposdef, List.length_map, hperm.length_eq, List.length_range]
  have hfb : ∀ x ∈ imageFull name payload, x < 256 := imageFull_bytes _ _ hnb hpb
  have hcap' : 8 * (imageFull name payload).length ≤ pos.length := by omega
  have hfull : (imageFull name payload).length = 12 + name.length + payload.length :=
    imageFull_length _ _
  have rb := readBack flat pos (imageFull name payload) hnd hpflat hfb hcap'
  have r0 : beBytesToNat (bitsToBytes (readBitsAt F pos 0 32)) = name.length := by
    have := rb 0 4 (by omega)
    rw [show 8 * 0 = 0 by norm_num, show 8 * 4 = 32 by norm_num, imageFull_slice0] at this
    rw [← hFdef] at this
    rw [this, beBytesToNat_beBytes_of_lt]
    norm_num
    omega
  have r2 : beBytesToNat (bitsToBytes (readBitsAt F pos (32 + name.length * 8) 32))
      = payload.length := by
    have := rb (4 + name.length) 4 (by omega)
    rw [show 8 * (4 + name.length) = 32 + name.length * 8 by ring,
        show 8 * 4 = 32 by norm_num, imageFull_slice2] at this
    rw [← hFdef] at this
    rw [this, beBytesToNat_beBytes_of_lt]
    norm_num
    omega
  rw [imageExtract, hFlen, ← havail, ← hposdef]
  rw [r0, if_neg (by omega)]
  rw [r2, if_pos hbig]

/-! ## Claim C1 -/

/-- C1 (counterexample). The round-trip claim fails as stated: embedding
payload `[5]` with the empty name into an image carrier and extracting with
the same (empty) password returns the substitute name `"extracted.bin"`,
not the empty name that was embedded. -/
theorem c1_counterexample :
    (match imageEmbed (List.range 104) (List.replicate 104 0) none [5] [] with
     | .ok (f, a) => imageExtract (List.range 104) f a
     | .error e => .error e)
      = .ok (extractedBin, [5])
    ∧ extractedBin ≠ ([] : List Nat) := by
  exact ⟨rfl, by decide⟩

/-- C1 (amended). Extraction inverts embedding for all four adapters under
each adapter's own conditions: image — non-empty name (an empty name is
replaced by `"extracted.bin"` on extraction), name ≤ 10 KiB, payload ≤
200 MiB, enough valid capacity; audio — any name/payload fitting the
carrier, with the AES-CBC cipher inverting correctly; video — non-empty
name (else `"payload.bin"` is substituted) of ≤ 65535 bytes and payload
length in `(0, 10^7]`; text — cover text free of zero-width characters,
name free of NUL bytes, AES-GCM inverting correctly. -/
theorem c1_round_trip_amended :
    (∀ perm flat : List Nat, ∀ alpha : Option (List Nat), ∀ payload name : List Nat,
      perm.Perm (List.range (availIdx flat.length alpha).length) →
      (∀ x ∈ name, x < 256) → (∀ x ∈ payload, x < 256) →
      name ≠ [] → name.length ≤ 10 * 1024 → payload.length ≤ 200 * 1024 * 1024 →
      8 * (imageFull name payload).length ≤ (availIdx flat.length alpha).length →
      ∃ F, imageEmbed perm flat alpha payload name = .ok (F, alpha)
        ∧ imageExtract perm F alpha = .ok (name, payload))
    ∧ (∀ enc dec : List Nat → List Nat → List Nat → List Nat,
       ∀ pw iv flat payload name : List Nat,
      (∀ x ∈ name, x < 256) → (∀ x ∈ audioPayloadBytes enc pw iv payload, x < 256) →
      name.length < 2 ^ 32 → (audioPayloadBytes enc pw iv payload).length < 2 ^ 32 →
      iv.length = 16 →
      dec (sha256 pw) iv (enc (sha256 pw) iv (pad16 payload)) = pad16 payload →
      8 * (audioFull enc pw iv name payload).length ≤ flat.length →
      ∃ F, audioEmbed enc pw iv flat payload name = .ok F
        ∧ audioExtract dec pw F = .ok (name, payload))
    ∧ (∀ perm blue payload name : List Nat,
      perm.Perm (List.range blue.length) →
      (∀ x ∈ name, x < 256) → (∀ x ∈ payload, x < 256) →
      name ≠ [] → name.length ≤ 65535 →
      1 ≤ payload.length → payload.length ≤ 10000000 →
      8 * (videoFull name payload).length ≤ blue.length →
      ∃ F, videoEmbed perm blue payload name = .ok F
        ∧ videoExtract perm F = .ok (name, payload))
    ∧ (∀ encB : List Nat → List Nat, ∀ decB : List Nat → Option (List Nat),
       ∀ pw cover payload name : List Nat,
      (∀ c ∈ cover, ¬(c = zw0 ∨ c = zw1 ∨ c = zws)) →
      (∀ x ∈ (if pw = [] then textData name payload else encB (textData name payload)),
          x < 256) →
      (0 : Nat) ∉ name →
      (pw ≠ [] → decB (encB (textData name payload)) = some (textData name payload)) →
      textExtract decB pw (textEmbed encB pw cover payload name) = .ok (name, payload)) := by
  refine ⟨?_, ?_, ?_, ?_⟩
  · intro perm flat alpha payload name hperm hnb hpb hne hnl hpl hcap
    obtain ⟨hemb, hext⟩ :=
      image_extract_embed perm flat alpha payload name hperm hnb hpb hnl hpl hcap
    rw [if_neg hne] at hext
    exact ⟨_, hemb, hext⟩
  · intro enc dec pw iv flat payload name hnb hpbb hnl hplb hiv hdec hcap
    obtain ⟨hemb, _, hext⟩ :=
      audio_extract_embed enc dec pw iv flat payload name hnb hpbb hnl hplb hiv hcap
    exact ⟨_, hemb, hext hdec⟩
  · intro perm blue payload name hperm hnb hpb hne hnl hpl1 hpl hcap
    obtain ⟨hemb, hext⟩ := video_extract_embed perm blue payload name hperm hnb hpb hnl
      (by omega) (by rw [if_neg hne]; exact hcap)
    rw [if_neg hne] at hemb hext
    rw [if_neg (by omega)] at hext
    exact ⟨_, hemb, hext⟩
  · intro encB decB pw cover payload name hcover hdata hnn hdec
    exact text_extract_embed encB decB pw cover payload name hcover hdata hnn hdec

/-- C1 (witness): the amended round trip applied to concrete carriers of
each of the four kinds. -/
theorem c1_round_trip_amended_witness :
    (∃ F, imageEmbed (List.range (availIdx (List.replicate 112 (0 : Nat)).length none).length)
        (List.replicate 112 0) none [1] [97] = .ok (F, none)
      ∧ imageExtract (List.range (availIdx (List.replicate 112 (0 : Nat)).length none).length)
          F none = .ok ([97], [1]))
    ∧ (∃ F, audioEmbed (fun _ _ x => x) [97] (List.replicate 16 0)
          (List.replicate 328 0) [7] [98] = .ok F
        ∧ audioExtract (fun _ _ x => x) [97] F = .ok ([98], [7]))
    ∧ (∃ F, videoEmbed (List.range (List.replicate 168 (0 : Nat)).length)
          (List.replicate 168 0) [9] [98] = .ok F
        ∧ videoExtract (List.range (List.replicate 168 (0 : Nat)).length) F
            = .ok ([98], [9]))
    ∧ textExtract (fun x => some x) [5] (textEmbed (fun x => x) [5] [72] [1, 2] [110])
        = .ok ([110], [1, 2]) := by
  obtain ⟨h1, h2, h3, h4⟩ := c1_round_trip_amended
  refine ⟨?_, ?_, ?_, ?_⟩
  · exact h1 _ _ none [1] [97] (List.Perm.refl _) (by decide) (by decide) (by decide)
      (by decide) (by decide) (by decide)
  · exact h2 (fun _ _ x => x) (fun _ _ x => x) [97] (List.replicate 16 0)
      (List.replicate 328 0) [7] [98] (by decide) (by decide) (by decide) (by decide)
      (by decide) rfl (by decide)
  · exact h3 _ _ [9] [98] (List.Perm.refl _) (by decide) (by decide) (by decide)
      (by decide) (by decide) (by decide) (by decide)
  · exact h4 (fun x => x) (fun x => some x) [5] [72] [1, 2] [110] (by decide) (by decide)
      (by decide) (fun _ => rfl)

/-! ## Claim C2 -/

/-- C2 (counterexample). Wrong-password rejection fails in the audio
adapter: embedding payload `[0]` with password `"a"` and extracting with
the empty password succeeds and returns the stored ciphertext
(IV ∥ AES-CBC bytes, 32 bytes ≠ the 1-byte payload), instead of failing
with a typed error. -/
theorem c2_counterexample :
    (match audioEmbed (fun _ _ x => x) [97] (List.replicate 16 0)
        (List.replicate 320 0) [0] [] with
     | .ok st => audioExtract (fun _ _ x => x) [] st
     | .error e => .error e)
      = .ok (([] : List Nat), List.replicate 16 0 ++ pad16 [0])
    ∧ List.replicate 16 0 ++ pad16 [0] ≠ [0] := by
  exact ⟨rfl, by decide⟩

/-- C2 (amended). Wrong-password rejection does not hold universally: in
the audio adapter, extracting with the empty password pw2 = "" from an
artifact embedded with any non-empty pw1 skips decryption entirely and,
since the audio frame has no checksum, returns a successful result whose
payload is the stored ciphertext `iv ∥ AES(key, pad(P))` — whose length
`16 + |pad(P)|` always differs from `|P|`. -/
theorem c2_wrong_password_amended
    (enc dec2 : List Nat → List Nat → List Nat → List Nat)
    (pw iv flat payload name : List Nat)
    (hpw : pw ≠ []) (hiv : iv.length = 16)
    (hlenp : (enc (sha256 pw) iv (pad16 payload)).length = (pad16 payload).length)
    (hnb : ∀ x ∈ name, x < 256)
    (hpbb : ∀ x ∈ audioPayloadBytes enc pw iv payload, x < 256)
    (hnl : name.length < 2 ^ 32)
    (hplb : (audioPayloadBytes enc pw iv payload).length < 2 ^ 32)
    (hcap : 8 * (audioFull enc pw iv name payload).length ≤ flat.length) :
    ∃ F, audioEmbed enc pw iv flat payload name = .ok F
      ∧ audioExtract dec2 [] F = .ok (name, audioPayloadBytes enc pw iv payload)
      ∧ (audioPayloadBytes enc pw iv payload).length ≠ payload.length := by
  obtain ⟨hemb, hext, _⟩ := audio_extract_embed enc (fun _ _ x => x) pw iv flat payload name
    hnb hpbb hnl hplb hiv hcap
  refine ⟨_, hemb, hext dec2, ?_⟩
  rw [audioPayloadBytes, if_neg hpw, audioEncrypt]
  rw [List.length_append, hiv, hlenp]
  have hp16 : (pad16 payload).length = payload.length + (16 - payload.length % 16) := by
    simp [pad16]
  omega

/-- C2 (witness): the amended statement at a concrete audio carrier. -/
theorem c2_wrong_password_amended_witness :
    ∃ F, audioEmbed (fun _ _ x => x) [97] (List.replicate 16 0)
        (List.replicate 320 0) [0] [] = .ok F
      ∧ audioExtract (fun _ _ x => x) [] F
          = .ok ([], audioPayloadBytes (fun _ _ x => x) [97] (List.replicate 16 0) [0])
      ∧ (audioPayloadBytes (fun _ _ x => x) [97] (List.replicate 16 0) [0]).length
          ≠ ([0] : List Nat).length := by
  exact c2_wrong_password_amended (fun _ _ x => x) (fun _ _ x => x) [97]
    (List.replicate 16 0) (List.replicate 320 0) [0] [] (by decide) (by decide) rfl
    (by decide) (by decide) (by decide) (by decide) (by decide)

/-! ## Claim C3 -/

/-- C3 (counterexample). Not every carrier's frame ends with a CRC-32
field: the audio frame for payload `[0]` with empty name and password is
`nameLen ∥ payloadLen ∥ payload` and its last four bytes are not
`CRC32([0])`. -/
theorem c3_counterexample :
    (audioFull (fun _ _ x => x) [] [] [] [0]).drop
        ((audioFull (fun _ _ x => x) [] [] [] [0]).length - 4)
      ≠ beBytes 4 (crc32 [0]) := by
  decide

/-- C3 (amended). The image and video frames end with the 4-byte big-endian
CRC-32 of the raw payload (neither adapter encrypts, so it is trivially
computed before any encryption); the audio frame carries no CRC at all —
it is `nameLen ∥ name ∥ payloadLen ∥ payloadBytes`, where only the payload
portion is encrypted — and the text frame is `name ∥ NUL ∥ payload` with
no CRC either. -/
theorem c3_crc_layout_amended :
    (∀ name payload : List Nat,
      (imageFull name payload).drop (8 + name.length + payload.length)
        = beBytes 4 (crc32 payload))
    ∧ (∀ name payload : List Nat,
      (videoFull name payload).drop (6 + name.length + payload.length)
        = beBytes 4 (crc32 payload))
    ∧ (∀ enc : List Nat → List Nat → List Nat → List Nat, ∀ pw iv name payload : List Nat,
      (audioFull enc pw iv name payload).length
          = 8 + name.length + (audioPayloadBytes enc pw iv payload).length
      ∧ (audioFull enc pw iv name payload).drop (4 + name.length)
          = beBytes 4 (audioPayloadBytes enc pw iv payload).length
              ++ audioPayloadBytes enc pw iv payload)
    ∧ (∀ name payload : List Nat, textData name payload = name ++ 0 :: payload) := by
  refine ⟨?_, ?_, ?_, fun _ _ => rfl⟩
  · intro name payload
    rw [show imageFull name payload
          = (beBytes 4 name.length ++ name ++ beBytes 4 payload.length ++ payload)
              ++ beBytes 4 (crc32 payload) by simp [imageFull, List.append_assoc]]
    exact drop_exact _ _ _ (by simp [beBytes_length]; omega)
  · intro name payload
    rw [show videoFull name payload
          = (beBytes 2 name.length ++ name ++ beBytes 4 payload.length ++ payload)
              ++ beBytes 4 (crc32 payload) by simp [videoFull, List.append_assoc]]
    exact drop_exact _ _ _ (by simp [beBytes_length]; omega)
  · intro enc pw iv name payload
    refine ⟨audioFull_length enc pw iv name payload, ?_⟩
    rw [show audioFull enc pw iv name payload
          = (beBytes 4 name.length ++ name)
              ++ (beBytes 4 (audioPayloadBytes enc pw iv payload).length
                  ++ audioPayloadBytes enc pw iv payload) by
        simp [audioFull, List.append_assoc]]
    exact drop_exact _ _ _ (by simp [beBytes_length])

/-! ## Claim C4 -/

/-- C4 (counterexample). The video adapter derives a placement seed from
the password but has no empty-password special case: its seed for the
empty password is the first 8 bytes of SHA-256 of the empty string
(`0xE3B0C44298FC1C14`), not 0 as claimed. -/
theorem c4_counterexample :
    videoSeed [] = 16406829232824261652 ∧ videoSeed [] ≠ 0 := by
  exact ⟨by decide, by decide⟩

/-- C4 (amended). The image adapter maps the empty password to seed 0 and
any non-empty password to the first 8 bytes (big-endian) of the SHA-256 of
its UTF-8 bytes; the video adapter applies the SHA-256 rule to every
password including the empty one (agreeing with the image adapter on
non-empty passwords, but yielding `0xE3B0C44298FC1C14` instead of 0 for
the empty password). Both are pure functions of the password. -/
theorem c4_seed_amended :
    imageSeed [] = 0
    ∧ videoSeed [] = 16406829232824261652
    ∧ (∀ pw : List Nat, pw ≠ [] →
        imageSeed pw = beBytesToNat ((sha256 pw).take 8)
        ∧ videoSeed pw = imageSeed pw) := by
  refine ⟨rfl, by decide, ?_⟩
  intro pw hpw
  rw [imageSeed, if_neg hpw]
  exact ⟨rfl, rfl⟩

/-- C4 (witness): the amended seed rules at the concrete password "a". -/
theorem c4_seed_amended_witness :
    imageSeed [97] = beBytesToNat ((sha256 [97]).take 8)
    ∧ videoSeed [97] = imageSeed [97] :=
  c4_seed_amended.2.2 [97] (by decide)

/-! ## Claim C5 -/

/-- C5 (counterexample). The audio adapter does not use a 16-bit
name-length field: its frame for the one-byte name `"a"` does not begin
with the 2-byte big-endian encoding of 1. -/
theorem c5_counterexample :
    (audioFull (fun _ _ x => x) [] [] [97] []).take 2 ≠ beBytes 2 1 := by
  decide

/-- C5 (amended). The video adapter encodes the name length in a 16-bit
big-endian field; the image AND audio adapters both use a 32-bit
big-endian field; the text adapter stores no length field at all — its
frame is the name terminated by a NUL byte, followed by the payload. -/
theorem c5_name_field_amended :
    (∀ name payload : List Nat, (videoFull name payload).take 2 = beBytes 2 name.length)
    ∧ (∀ name payload : List Nat, (imageFull name payload).take 4 = beBytes 4 name.length)
    ∧ (∀ enc : List Nat → List Nat → List Nat → List Nat, ∀ pw iv name payload : List Nat,
        (audioFull enc pw iv name payload).take 4 = beBytes 4 name.length)
    ∧ (∀ name payload : List Nat, textData name payload = name ++ 0 :: payload) := by
  refine ⟨?_, ?_, ?_, fun _ _ => rfl⟩
  · intro name payload
    simpa using videoFull_slice0 name payload
  · intro name payload
    simpa using imageFull_slice0 name payload
  · intro enc pw iv name payload
    simpa using audioFull_slice0 enc pw iv name payload

/-! ## Claim C6 -/

/-- A 48-byte blue-channel carrier whose decoded video frame declares name
length 0 and payload length 10000001 (within the claimed 200 MiB bound). -/
def c6blue : List Nat :=
  (bytesToBits ([0, 0] ++ beBytes 4 10000001)).map (fun b => if b then 1 else 0)

/-- A 64-sample audio carrier whose sequentially decoded frame declares
name length 0 and payload length 209715201 bytes (> 200 MiB). -/
def c6audio : List Nat :=
  (bytesToBits (beBytes 4 0 ++ beBytes 4 209715201)).map (fun b => if b then 1 else 0)

/-- C6 (counterexample). The sanity bounds are not uniform across
adapters: on a video carrier whose decoded name length is 0 (≤ 10 KiB) and
decoded payload length is 10000001 (≤ 200 MiB), extraction nonetheless
fails, because the video adapter's actual bound is 10^7 bytes. -/
theorem c6_counterexample :
    videoExtract (List.range 48) c6blue = .error .format
    ∧ beBytesToNat (bitsToBytes (readBitsAt c6blue (List.range 48) 16 32)) = 10000001
    ∧ beBytesToNat (bitsToBytes (readBitsAt c6blue (List.range 48) 0 16)) = 0
    ∧ 10000001 ≤ 200 * 1024 * 1024 := by
  exact ⟨rfl, by decide, by decide, by norm_num⟩

/-- C6 (amended). The 10 KiB / 200 MiB sanity bounds hold only for the
image adapter: image extraction fails with FormatError when the embedded
name exceeds 10 KiB or the embedded payload exceeds 200 MiB. The video
adapter instead rejects any decoded payload length greater than 10^7
bytes (or equal to 0) and has no name-length bound, and the audio adapter
performs no sanity checks at all — it succeeds even when the decoded
payload length field exceeds 200 MiB. -/
theorem c6_sanity_bounds_amended :
    (∀ perm flat : List Nat, ∀ alpha : Option (List Nat), ∀ payload name : List Nat,
      perm.Perm (List.range (availIdx flat.length alpha).length) →
      (∀ x ∈ name, x < 256) → (∀ x ∈ payload, x < 256) →
      name.length < 2 ^ 32 → 10 * 1024 < name.length →
      8 * (imageFull name payload).length ≤ (availIdx flat.length alpha).length →
      imageExtract perm
        (writeBits flat (perm.map fun i => (availIdx flat.length alpha).getD i 0)
          (bytesToBits (imageFull name payload))) alpha = .error .format)
    ∧ (∀ perm flat : List Nat, ∀ alpha : Option (List Nat), ∀ payload name : List Nat,
      perm.Perm (List.range (availIdx flat.length alpha).length) →
      (∀ x ∈ name, x < 256) → (∀ x ∈ payload, x < 256) →
      name.length ≤ 10 * 1024 → payload.length < 2 ^ 32 →
      200 * 1024 * 1024 < payload.length →
      8 * (imageFull name payload).length ≤ (availIdx flat.length alpha).length →
      imageExtract perm
        (writeBits flat (perm.map fun i => (availIdx flat.length alpha).getD i 0)
          (bytesToBits (imageFull name payload))) alpha = .error .format)
    ∧ (∀ perm blue payload name : List Nat,
      perm.Perm (List.range blue.length) →
      (∀ x ∈ name, x < 256) → (∀ x ∈ payload, x < 256) →
      name.length ≤ 65535 → payload.length < 2 ^ 32 → 10000000 < payload.length →
      8 * (videoFull (if name = [] then payloadBin else name) payload).length
        ≤ blue.length →
      videoExtract perm
        (writeBits blue perm
          (bytesToBits (videoFull (if name = [] then payloadBin else name) payload)))
        = .error .format)
    ∧ (audioExtract (fun _ _ x => x) [] c6audio = .ok ([], [])
      ∧ beBytesToNat (bitsToBytes (readBitsAt c6audio (List.range c6audio.length) 32 32))
          = 209715201
      ∧ 200 * 1024 * 1024 < 209715201) := by
  refine ⟨?_, ?_, ?_, by rfl, by decide, by norm_num⟩
  · intro perm flat alpha payload name hperm hnb hpb hnl32 hbig hcap
    exact image_extract_name_too_long perm flat alpha payload name hperm hnb hpb hnl32
      hbig hcap
  · intro perm flat alpha payload name hperm hnb hpb hnl hpl32 hbig hcap
    exact image_extract_payload_too_long perm flat alpha payload name hperm hnb hpb hnl
      hpl32 hbig hcap
  · intro perm blue payload name hperm hnb hpb hnl hpl32 hbig hcap
    obtain ⟨_, hext⟩ := video_extract_embed perm blue payload name hperm hnb hpb hnl
      hpl32 hcap
    rw [if_pos (Or.inr hbig)] at hext
    exact hext

/-- C6 (witness): the amended bounds at concrete carriers — an image name
of 10241 bytes, an image payload of 200 MiB + 1, and a video payload of
10^7 + 1 bytes. -/
theorem c6_sanity_bounds_amended_witness :
    imageExtract (List.range (availIdx (List.replicate 82024 (0 : Nat)).length none).length)
      (writeBits (List.replicate 82024 0)
        ((List.range (availIdx (List.replicate 82024 (0 : Nat)).length none).length).map
          fun i => (availIdx (List.replicate 82024 (0 : Nat)).length none).getD i 0)
        (bytesToBits (imageFull (List.replicate 10241 1) []))) none = .error .format
    ∧ imageExtract
        (List.range (availIdx (List.replicate 1677721704 (0 : Nat)).length none).length)
        (writeBits (List.replicate 1677721704 0)
          ((List.range (availIdx (List.replicate 1677721704 (0 : Nat)).length none).length).map
            fun i => (availIdx (List.replicate 1677721704 (0 : Nat)).length none).getD i 0)
          (bytesToBits (imageFull [] (List.replicate 209715201 1)))) none = .error .format
    ∧ videoExtract (List.range (List.replicate 80000096 (0 : Nat)).length)
        (writeBits (List.replicate 80000096 0)
          (List.range (List.replicate 80000096 (0 : Nat)).length)
          (bytesToBits (videoFull (if ([97] : List Nat) = [] then payloadBin else [97])
            (List.replicate 10000001 1)))) = .error .format := by
  obtain ⟨h1, h2, h3, _⟩ := c6_sanity_bounds_amended
  refine ⟨?_, ?_, ?_⟩
  · exact h1 _ _ none [] (List.replicate 10241 1) (List.Perm.refl _)
      (fun x hx => by rw [List.eq_of_mem_replicate hx]; norm_num)
      (by intro x hx; simp at hx)
      (by rw [List.length_replicate]; norm_num)
      (by rw [List.length_replicate]; norm_num)
      (by rw [imageFull_length, availIdx, List.length_range, List.length_replicate,
              List.length_replicate]
          norm_num)
  · exact h2 _ _ none (List.replicate 209715201 1) [] (List.Perm.refl _)
      (by intro x hx; simp at hx)
      (fun x hx => by rw [List.eq_of_mem_replicate hx]; norm_num)
      (by simp)
      (by rw [List.length_replicate]; norm_num)
      (by rw [List.length_replicate]; norm_num)
      (by rw [imageFull_length, availIdx, List.length_range, List.length_replicate,
              List.length_replicate]
          norm_num)
  · exact h3 _ _ (List.replicate 10000001 1) [97] (List.Perm.refl _)
      (by decide)
      (fun x hx => by rw [List.eq_of_mem_replicate hx]; norm_num)
      (by decide)
      (by rw [List.length_replicate]; norm_num)
      (by rw [List.length_replicate]; norm_num)
      (by rw [if_neg (show ¬([97] : List Nat) = [] by decide), videoFull_length,
              List.length_replicate, List.length_replicate]
          norm_num)

/-! ## Claim C7 -/

/-- C7. Capacity boundary and atomicity for the three capacity-bounded
adapters (the text adapter appends and has no capacity notion): whenever
the expanded bitstream is longer than the valid capacity, embed fails with
CapacityError before writing anything (in this pure model: it returns only
the error, leaving the carrier untouched), and whenever it fits, embed
succeeds and every bit of the frame is written — reading the written
positions back recovers the full frame. -/
theorem c7_capacity_atomicity :
    (∀ perm flat : List Nat, ∀ alpha : Option (List Nat), ∀ payload name : List Nat,
      (availIdx flat.length alpha).length < (bytesToBits (imageFull name payload)).length →
      imageEmbed perm flat alpha payload name = .error .capacity)
    ∧ (∀ perm flat : List Nat, ∀ alpha : Option (List Nat), ∀ payload name : List Nat,
      perm.Perm (List.range (availIdx flat.length alpha).length) →
      (∀ x ∈ name, x < 256) → (∀ x ∈ payload, x < 256) →
      (bytesToBits (imageFull name payload)).length ≤ (availIdx flat.length alpha).length →
      ∃ F, imageEmbed perm flat alpha payload name = .ok (F, alpha)
        ∧ bitsToBytes (readBitsAt F
            (perm.map fun i => (availIdx flat.length alpha).getD i 0) 0
            (8 * (imageFull name payload).length)) = imageFull name payload)
    ∧ (∀ enc : List Nat → List Nat → List Nat → List Nat,
       ∀ pw iv flat payload name : List Nat,
      flat.length < (bytesToBits (audioFull enc pw iv name payload)).length →
      audioEmbed enc pw iv flat payload name = .error .capacity)
    ∧ (∀ enc : List Nat → List Nat → List Nat → List Nat,
       ∀ pw iv flat payload name : List Nat,
      (∀ x ∈ name, x < 256) → (∀ x ∈ audioPayloadBytes enc pw iv payload, x < 256) →
      (bytesToBits (audioFull enc pw iv name payload)).length ≤ flat.length →
      ∃ F, audioEmbed enc pw iv flat payload name = .ok F
        ∧ bitsToBytes (readBitsAt F (List.range flat.length) 0
            (8 * (audioFull enc pw iv name payload).length))
          = audioFull enc pw iv name payload)
    ∧ (∀ perm blue payload name : List Nat,
      (if name = [] then payloadBin else name).length ≤ 65535 →
      blue.length < (bytesToBits
        (videoFull (if name = [] then payloadBin else name) payload)).length →
      videoEmbed perm blue payload name = .error .capacity)
    ∧ (∀ perm blue payload name : List Nat,
      perm.Perm (List.range blue.length) →
      (∀ x ∈ name, x < 256) → (∀ x ∈ payload, x < 256) →
      (if name = [] then payloadBin else name).length ≤ 65535 →
      (bytesToBits (videoFull (if name = [] then payloadBin else name) payload)).length
        ≤ blue.length →
      ∃ F, videoEmbed perm blue payload name = .ok F
        ∧ bitsToBytes (readBitsAt F perm 0
            (8 * (videoFull (if name = [] then payloadBin else name) payload).length))
          = videoFull (if name = [] then payloadBin else name) payload) := by
  refine ⟨?_, ?_, ?_, ?_, ?_, ?_⟩
  · intro perm flat alpha payload name h
    rw [imageEmbed, if_pos h]
  · intro perm flat alpha payload name hperm hnb hpb hcap
    have hbl : (bytesToBits (imageFull name payload)).length
        = 8 * (imageFull name payload).length := bytesToBits_length _
    set avail := availIdx flat.length alpha with havail
    set pos := perm.map fun i => avail.getD i 0 with hposdef
    have hpermnd : perm.Nodup := hperm.nodup_iff.mpr (List.nodup_range _)
    have hpermmem : ∀ i ∈ perm, i < avail.length := by
      intro i hi
      exact List.mem_range.mp (hperm.mem_iff.mp hi)
    have hnd : pos.Nodup :=
      mapGetD_nodup perm avail hpermnd hpermmem (availIdx_nodup _ _)
    have hpflat : ∀ q ∈ pos, q < flat.length :=
      mapGetD_mem_lt perm avail flat.length hpermmem (availIdx_mem_lt _ _)
    have hposlen : pos.length = avail.length := by
      rw [hposdef, List.length_map, hperm.length_eq, List.length_range]
    have hfb : ∀ x ∈ imageFull name payload, x < 256 := imageFull_bytes _ _ hnb hpb
    have hcap8 : 8 * (imageFull name payload).length ≤ pos.length := by
      rw [hposlen]; omega
    refine ⟨writeBits flat pos (bytesToBits (imageFull name payload)), ?_, ?_⟩
    · rw [imageEmbed, ← havail, ← hposdef, if_neg (by omega)]
    · have := readBack flat pos (imageFull name payload) hnd hpflat hfb hcap8
        0 (imageFull name payload).length (by omega)
      rw [show 8 * 0 = 0 by norm_num, List.drop_zero, List.take_length] at this
      exact this
  · intro enc pw iv flat payload name h
    rw [audioEmbed, if_pos h]
  · intro enc pw iv flat payload name hnb hpbb hcap
    have hbl : (bytesToBits (audioFull enc pw iv name payload)).length
        = 8 * (audioFull enc pw iv name payload).length := bytesToBits_length _
    have hfb : ∀ x ∈ audioFull enc pw iv name payload, x < 256 :=
      audioFull_bytes _ _ _ _ _ hnb hpbb
    refine ⟨writeBits flat (List.range flat.length)
      (bytesToBits (audioFull enc pw iv name payload)), ?_, ?_⟩
    · rw [audioEmbed, if_neg (by omega)]
    · have := readBack flat (List.range flat.length) (audioFull enc pw iv name payload)
        (List.nodup_range _) (fun q hq => List.mem_range.mp hq) hfb
        (by rw [List.length_range]; omega)
        0 (audioFull enc pw iv name payload).length (by omega)
      rw [show 8 * 0 = 0 by norm_num, List.drop_zero, List.take_length] at this
      exact this
  · intro perm blue payload name hnl h
    rw [videoEmbed]
    rw [if_neg (by omega), if_pos h]
  · intro perm blue payload name hperm hnb hpb hnl hcap
    have hbl : (bytesToBits (videoFull (if name = [] then payloadBin else name) payload)).length
        = 8 * (videoFull (if name = [] then payloadBin else name) payload).length :=
      bytesToBits_length _
    have hnnb : ∀ x ∈ (if name = [] then payloadBin else name), x < 256 := by
      split
      · decide
      · exact hnb
    have hfb : ∀ x ∈ videoFull (if name = [] then payloadBin else name) payload, x < 256 :=
      videoFull_bytes _ _ hnnb hpb
    have hnd : perm.Nodup := hperm.nodup_iff.mpr (List.nodup_range _)
    have hpblue : ∀ q ∈ perm, q < blue.length := by
      intro q hq
      exact List.mem_range.mp (hperm.mem_iff.mp hq)
    have hposlen : perm.length = blue.length := by
      rw [hperm.length_eq, List.length_range]
    refine ⟨writeBits blue perm
      (bytesToBits (videoFull (if name = [] then payloadBin else name) payload)), ?_, ?_⟩
    · rw [videoEmbed]
      rw [if_neg (by omega), if_neg (by omega)]
    · have := readBack blue perm (videoFull (if name = [] then payloadBin else name) payload)
        hnd hpblue hfb (by omega)
        0 (videoFull (if name = [] then payloadBin else name) payload).length (by omega)
      rw [show 8 * 0 = 0 by norm_num, List.drop_zero, List.take_length] at this
      exact this

/-- C7 (witness): the capacity boundary at concrete carriers — an empty
image/audio/video carrier rejects any frame, and carriers of exactly the
frame size accept it with the full frame readable back. -/
theorem c7_capacity_atomicity_witness :
    imageEmbed [] [] none [5] [97] = .error .capacity
    ∧ (∃ F, imageEmbed (List.range (availIdx (List.replicate 112 (0 : Nat)).length none).length)
        (List.replicate 112 0) none [1] [97] = .ok (F, none)
      ∧ bitsToBytes (readBitsAt F
          ((List.range (availIdx (List.replicate 112 (0 : Nat)).length none).length).map
            fun i => (availIdx (List.replicate 112 (0 : Nat)).length none).getD i 0) 0
          (8 * (imageFull [97] [1]).length)) = imageFull [97] [1])
    ∧ audioEmbed (fun _ _ x => x) [] [] [] [5] [97] = .error .capacity
    ∧ (∃ F, audioEmbed (fun _ _ x => x) [] [] (List.replicate 112 0) [1] [97] = .ok F
      ∧ bitsToBytes (readBitsAt F (List.range (List.replicate 112 (0 : Nat)).length) 0
          (8 * (audioFull (fun _ _ x => x) [] [] [97] [1]).length))
        = audioFull (fun _ _ x => x) [] [] [97] [1])
    ∧ videoEmbed [] [] [5] [97] = .error .capacity
    ∧ (∃ F, videoEmbed (List.range (List.replicate 128 (0 : Nat)).length)
        (List.replicate 128 0) [1] [97] = .ok F
      ∧ bitsToBytes (readBitsAt F (List.range (List.replicate 128 (0 : Nat)).length) 0
          (8 * (videoFull (if ([97] : List Nat) = [] then payloadBin else [97]) [1]).length))
        = videoFull (if ([97] : List Nat) = [] then payloadBin else [97]) [1]) := by
  obtain ⟨h1, h2, h3, h4, h5, h6⟩ := c7_capacity_atomicity
  refine ⟨?_, ?_, ?_, ?_, ?_, ?_⟩
  · exact h1 [] [] none [5] [97] (by decide)
  · exact h2 _ _ none [1] [97] (List.Perm.refl _) (by decide) (by decide) (by decide)
  · exact h3 (fun _ _ x => x) [] [] [] [5] [97] (by decide)
  · exact h4 (fun _ _ x => x) [] [] (List.replicate 112 0) [1] [97] (by decide) (by decide)
      (by decide)
  · exact h5 [] [] [5] [97] (by decide) (by decide)
  · exact h6 _ _ [1] [97] (List.Perm.refl _) (by decide) (by decide) (by decide) (by decide)

/-! ## Claim C8 -/

/-- C8 (counterexample). Tamper detection fails in the audio adapter:
embedding payload `[0]` with no password, then flipping the carried bit of
sample 64 — the unit holding the first payload bit — makes extraction
succeed with the corrupted payload `[128]` instead of failing with
IntegrityError (the audio frame has no checksum). -/
theorem c8_counterexample :
    (match audioEmbed (fun _ _ x => x) [] [] (List.replicate 72 0) [0] [] with
     | .ok st => audioExtract (fun _ _ x => x) [] (flipLsb st 64)
     | .error e => .error e)
      = .ok (([] : List Nat), [128])
    ∧ ([128] : List Nat) ≠ [0] := by
  exact ⟨rfl, by decide⟩

/-- C8 (amended). Tamper detection holds for the image and video adapters:
flipping the carried (least significant) bit of any unit holding a payload
bit of a successfully embedded artifact makes extraction with the correct
password fail with IntegrityError, because CRC-32 detects every
single-byte difference. The audio and text adapters store no checksum, so
a flipped payload bit can yield a successful but corrupted extraction
(audio with the empty password deterministically does). -/
theorem c8_tamper_amended :
    (∀ perm flat : List Nat, ∀ alpha : Option (List Nat), ∀ payload name : List Nat, ∀ t : Nat,
      perm.Perm (List.range (availIdx flat.length alpha).length) →
      (∀ x ∈ name, x < 256) → (∀ x ∈ payload, x < 256) →
      name.length ≤ 10 * 1024 → payload.length ≤ 200 * 1024 * 1024 →
      8 * (imageFull name payload).length ≤ (availIdx flat.length alpha).length →
      t < payload.length * 8 →
      ∃ F, imageEmbed perm flat alpha payload name = .ok (F, alpha)
        ∧ imageExtract perm
            (flipLsb F ((perm.map fun i => (availIdx flat.length alpha).getD i 0).getD
              (64 + name.length * 8 + t) 0)) alpha
          = .error .integrity)
    ∧ (∀ perm blue payload name : List Nat, ∀ t : Nat,
      perm.Perm (List.range blue.length) →
      (∀ x ∈ name, x < 256) → (∀ x ∈ payload, x < 256) →
      name.length ≤ 65535 → 1 ≤ payload.length → payload.length ≤ 10000000 →
      8 * (videoFull (if name = [] then payloadBin else name) payload).length
        ≤ blue.length →
      t < payload.length * 8 →
      ∃ F, videoEmbed perm blue payload name = .ok F
        ∧ videoExtract perm
            (flipLsb F (perm.getD
              (48 + (if name = [] then payloadBin else name).length * 8 + t) 0))
          = .error .integrity) := by
  constructor
  · intro perm flat alpha payload name t hperm hnb hpb hnl hpl hcap ht
    obtain ⟨hemb, _⟩ :=
      image_extract_embed perm flat alpha payload name hperm hnb hpb hnl hpl hcap
    exact ⟨_, hemb,
      image_tamper perm flat alpha payload name t hperm hnb hpb hnl hpl hcap ht⟩
  · intro perm blue payload name t hperm hnb hpb hnl hpl1 hpl hcap ht
    obtain ⟨hemb, _⟩ := video_extract_embed perm blue payload name hperm hnb hpb hnl
      (by omega) hcap
    exact ⟨_, hemb,
      video_tamper perm blue payload name t hperm hnb hpb hnl hpl1 hpl hcap ht⟩

/-- C8 (witness): tamper detection applied to concrete image and video
carriers, flipping the unit that holds the first payload bit. -/
theorem c8_tamper_amended_witness :
    (∃ F, imageEmbed (List.range (availIdx (List.replicate 112 (0 : Nat)).length none).length)
        (List.replicate 112 0) none [1] [97] = .ok (F, none)
      ∧ imageExtract (List.range (availIdx (List.replicate 112 (0 : Nat)).length none).length)
          (flipLsb F (((List.range (availIdx (List.replicate 112 (0 : Nat)).length none).length).map
            fun i => (availIdx (List.replicate 112 (0 : Nat)).length none).getD i 0).getD
              (64 + ([97] : List Nat).length * 8 + 0) 0)) none
        = .error .integrity)
    ∧ (∃ F, videoEmbed (List.range (List.replicate 168 (0 : Nat)).length)
        (List.replicate 168 0) [9] [98] = .ok F
      ∧ videoExtract (List.range (List.replicate 168 (0 : Nat)).length)
          (flipLsb F ((List.range (List.replicate 168 (0 : Nat)).length).getD
            (48 + (if ([98] : List Nat) = [] then payloadBin else [98]).length * 8 + 0) 0))
        = .error .integrity) := by
  obtain ⟨h1, h2⟩ := c8_tamper_amended
  constructor
  · exact h1 _ _ none [1] [97] 0 (List.Perm.refl _) (by decide) (by decide) (by decide)
      (by decide) (by decide) (by decide)
  · exact h2 _ _ [9] [98] 0 (List.Perm.refl _) (by decide) (by decide) (by decide)
      (by decide) (by decide) (by decide) (by decide)

/-! ## Claim C9 -/

/-- C9. Alpha exclusion: for an RGBA image carrier, every pixel whose
alpha value is exactly zero has all three of its colour bytes excluded
from the valid embedding positions, so a successful embed leaves those
bytes byte-identical; and the alpha channel itself is returned unmodified
by embed. -/
theorem c9_alpha_exclusion (perm flat : List Nat) (alphaL : List Nat)
    (payload name : List Nat) (j r : Nat)
    (hperm : perm.Perm (List.range (availIdx flat.length (some alphaL)).length))
    (hj : j < alphaL.length) (halpha : alphaL.getD j 0 = 0) (hr : r < 3)
    (hcap : 8 * (imageFull name payload).length ≤ (availIdx flat.length (some alphaL)).length) :
    ∃ F, imageEmbed perm flat (some alphaL) payload name = .ok (F, some alphaL)
      ∧ F.length = flat.length
      ∧ F.getD (3 * j + r) 0 = flat.getD (3 * j + r) 0 := by
  have hbl : (bytesToBits (imageFull name payload)).length
      = 8 * (imageFull name payload).length := bytesToBits_length _
  set avail := availIdx flat.length (some alphaL) with havail
  set pos := perm.map fun i => avail.getD i 0 with hposdef
  have hpermmem : ∀ i ∈ perm, i < avail.length := by
    intro i hi
    exact List.mem_range.mp (hperm.mem_iff.mp hi)
  have hnotin : (3 * j + r) ∉ pos := by
    intro hmem
    rw [hposdef] at hmem
    obtain ⟨i, hi, hq⟩ := List.mem_map.mp hmem
    have hi' : i < avail.length := hpermmem i hi
    have hgm : avail.getD i 0 ∈ avail := by
      have : avail.getD i 0 = avail[i] := by
        simp [List.getD_eq_getElem?_getD, List.getElem?_eq_getElem hi']
      rw [this]
      exact List.getElem_mem hi'
    rw [hq] at hgm
    rw [havail, availIdx] at hgm
    have hpred := List.of_mem_filter hgm
    have hdiv : (3 * j + r) / 3 = j := by omega
    rw [hdiv, halpha] at hpred
    simp at hpred
  refine ⟨writeBits flat pos (bytesToBits (imageFull name payload)), ?_, ?_, ?_⟩
  · rw [imageEmbed, ← havail, ← hposdef, if_neg (by omega)]
  · exact writeBits_length _ _ _
  · exact writeBits_getD_not_mem flat pos (bytesToBits (imageFull name payload))
      (3 * j + r) hnotin

/-- C9 (witness): a 39-pixel RGBA carrier whose first pixel is fully
transparent keeps all three of that pixel's colour bytes unchanged. -/
theorem c9_alpha_exclusion_witness :
    ∃ F, imageEmbed
        (List.range (availIdx (List.replicate 117 (0 : Nat)).length
          (some (0 :: List.replicate 38 1))).length)
        (List.replicate 117 0) (some (0 :: List.replicate 38 1)) [1] [97]
        = .ok (F, some (0 :: List.replicate 38 1))
      ∧ F.length = (List.replicate 117 (0 : Nat)).length
      ∧ F.getD (3 * 0 + 0) 0 = (List.replicate 117 (0 : Nat)).getD (3 * 0 + 0) 0 := by
  exact c9_alpha_exclusion _ _ (0 :: List.replicate 38 1) [1] [97] 0 0
    (List.Perm.refl _) (by decide) (by decide) (by decide) (by decide)

/-! ## Claim C10 -/

/-- C10. Empty-payload asymmetry in the video adapter: embedding an empty
payload succeeds (the frame simply records payload length 0; there is no
minimum-length check in embed), but extraction of the produced artifact
always fails, because extract rejects every decoded payload length outside
`(0, 10^7]` — including 0 — with a FormatError. -/
theorem c10_video_empty_payload (perm blue name : List Nat)
    (hperm : perm.Perm (List.range blue.length))
    (hnb : ∀ x ∈ name, x < 256) (hnl : name.length ≤ 65535)
    (hcap : 8 * (videoFull (if name = [] then payloadBin else name) []).length
      ≤ blue.length) :
    ∃ F, videoEmbed perm blue [] name = .ok F
      ∧ videoExtract perm F = .error .format := by
  obtain ⟨hemb, hext⟩ := video_extract_embed perm blue [] name hperm hnb
    (by intro x hx; simp at hx) hnl (by norm_num) hcap
  rw [if_pos (by simp : List.length ([] : List Nat) = 0 ∨ 10000000 < List.length ([] : List Nat))] at hext
  exact ⟨_, hemb, hext⟩

/-- C10 (witness): a 168-byte blue channel accepts the empty payload under
the default name and the matching extraction fails. -/
theorem c10_video_empty_payload_witness :
    ∃ F, videoEmbed (List.range (List.replicate 168 (0 : Nat)).length)
        (List.replicate 168 0) [] [] = .ok F
      ∧ videoExtract (List.range (List.replicate 168 (0 : Nat)).length) F
          = .error .format := by
  exact c10_video_empty_payload _ _ [] (List.Perm.refl _) (by decide) (by decide)
    (by decide)

end UniSteno
